import Mathlib

/-!
# Process census of `metric/system/processes.go`

A shallow embedding of the `processes` collector: the zero table built by
`getEmptyFields`, the command-listing parser `gatherFromPS`, the pseudo-file
parser `gatherFromProc`, the reader `readProcFile` and the orchestrator
`Collect`.

Conventions of the embedding.

* `[]byte` is `List UInt8`; a nil slice is `none` where the code tests for it.
* `map[string]interface{}` holding `int64` values is a finite-support function
  `String → Option Int`; a missing key is `none` (the nil interface).
* `int64` addition wraps around modulo `2^64` (`wrapInt64`).
* A Go run ends in one of three ways: it returns a nil error, it returns a
  non-nil error, or it panics at run time (`Outcome`).
* The operating system is an input: `runtime.GOOS`, the result of
  `filepath.Glob`, and the two function fields of `Processes`.
* Where calls follow one another, memory is explicit (`Store`): the struct
  behind the receiver and the maps made so far, a map value being a reference.
-/

set_option autoImplicit false
set_option maxRecDepth 8000

namespace Logkit

/-! ## Bytes and strings -/

/-- A Go byte slice. -/
abbrev Bytes := List UInt8

/-- Go conversion `[]byte(s)` of a string: its UTF-8 encoding. -/
def bytesOf (s : String) : Bytes := s.toList.flatMap String.utf8EncodeChar

/-! ## Errors and panics -/

/-- Go error values that reach the collector. -/
inductive GoError where
  /-- An `*os.PathError` whose `Err` is the `syscall.Errno` given. -/
  | pathError (op path : String) (errno : Nat)
  /-- The sentinel `os.ErrNotExist`. -/
  | errNotExist
  /-- Any other error, such as one built by `fmt.Errorf`, with its text. -/
  | message (text : String)
  deriving DecidableEq

/-- Errno `syscall.ENOENT`. -/
def ENOENT : Nat := 2

/-- Errno `syscall.ESRCH`. -/
def ESRCH : Nat := 3

/-- Predicate `os.IsNotExist(err)`. -/
def isNotExist : GoError → Bool
  | .pathError _ _ errno => errno == ENOENT
  | .errNotExist => true
  | .message _ => false

/-- Test `perr, ok := err.(*os.PathError); ok && perr.Err == syscall.ESRCH`. -/
def isPathESRCH : GoError → Bool
  | .pathError _ _ errno => errno == ESRCH
  | _ => false

/-- Run-time panics of the Go code. -/
inductive Panic where
  /-- Assertion `fields[key].(int64)` on a key the map does not hold. -/
  | interfaceConversion (key : String)
  /-- Slice expression `data[low:]` with `low > len(data)`. -/
  | sliceBounds (low len : Nat)
  /-- Index expression `s[index]` with `index >= len(s)`. -/
  | indexOutOfRange (index len : Nat)
  deriving DecidableEq

/-! ## The state table -/

/-- The table `map[string]interface{}` whose values are `int64`. -/
abbrev Fields := String → Option Int

/-- The empty map literal. -/
def Fields.empty : Fields := fun _ => none

/-- Map assignment `fields[key] = value`. -/
def Fields.set (fields : Fields) (key : String) (value : Int) : Fields :=
  fun k => if k = key then some value else fields k

/-- Reduction of an integer to the `int64` range, two's complement. -/
def wrapInt64 (x : Int) : Int := (x + 2 ^ 63) % 2 ^ 64 - 2 ^ 63

/-- Statement `fields[key] = fields[key].(int64) + delta`: the assertion
panics when the key is missing, otherwise the sum is stored. -/
def Fields.incr (fields : Fields) (key : String) (delta : Int) : Except Panic Fields :=
  match fields key with
  | some v => .ok (fields.set key (wrapInt64 (v + delta)))
  | none => .error (.interfaceConversion key)

/-- Source `getEmptyFields`, with `runtime.GOOS` as argument. -/
def getEmptyFields (goos : String) : Fields :=
  let fields := ((((((Fields.empty.set "blocked" 0).set "zombies" 0).set "stopped" 0).set
    "running" 0).set "sleeping" 0).set "total" 0).set "unknown" 0
  if goos = "freebsd" then
    (fields.set "idle" 0).set "wait" 0
  else if goos = "darwin" then
    fields.set "idle" 0
  else if goos = "openbsd" then
    fields.set "idle" 0
  else if goos = "linux" then
    ((fields.set "dead" 0).set "paging" 0).set "total_threads" 0
  else
    fields

/-! ## Library functions used by the parsers -/

/-- The rune `utf8.RuneError`. -/
def RuneError : Nat := 0xFFFD

/-- Library `utf8.DecodeRune`: the rune at the head of the slice and its width.
A short or ill-formed sequence decodes to `RuneError` of width 1. -/
def decodeRune : Bytes → Nat × Nat
  | [] => (RuneError, 0)
  | c0 :: rest =>
    let p0 := c0.toNat
    if p0 < 0x80 then (p0, 1)
    else if p0 < 0xC2 || 0xF4 < p0 then (RuneError, 1)
    else
      let sz := if p0 < 0xE0 then 2 else if p0 < 0xF0 then 3 else 4
      let lo := if p0 = 0xE0 then 0xA0 else if p0 = 0xF0 then 0x90 else 0x80
      let hi := if p0 = 0xED then 0x9F else if p0 = 0xF4 then 0x8F else 0xBF
      match rest with
      | [] => (RuneError, 1)
      | c1 :: rest1 =>
        let b1 := c1.toNat
        if b1 < lo || hi < b1 then (RuneError, 1)
        else if sz ≤ 2 then ((p0 % 32) * 64 + b1 % 64, 2)
        else
          match rest1 with
          | [] => (RuneError, 1)
          | c2 :: rest2 =>
            let b2 := c2.toNat
            if b2 < 0x80 || 0xBF < b2 then (RuneError, 1)
            else if sz ≤ 3 then ((p0 % 16) * 4096 + (b1 % 64) * 64 + b2 % 64, 3)
            else
              match rest2 with
              | [] => (RuneError, 1)
              | c3 :: _ =>
                let b3 := c3.toNat
                if b3 < 0x80 || 0xBF < b3 then (RuneError, 1)
                else ((p0 % 8) * 262144 + (b1 % 64) * 4096 + (b2 % 64) * 64 + b3 % 64, 4)

/-- Library `unicode.IsSpace`. -/
def isSpace (r : Nat) : Bool :=
  if r ≤ 0xFF then
    r == 0x09 || r == 0x0A || r == 0x0B || r == 0x0C || r == 0x0D || r == 0x20 ||
      r == 0x85 || r == 0xA0
  else
    r == 0x1680 || (0x2000 ≤ r && r ≤ 0x200A) || r == 0x2028 || r == 0x2029 ||
      r == 0x202F || r == 0x205F || r == 0x3000

/-- Loop of `bytes.FieldsFunc`. `pending` counts the bytes of the current rune
still to be passed over, `cur` holds the open field reversed (empty when no
field is open, the code's `start < 0`). -/
def fieldsFuncAux (f : Nat → Bool) : Nat → Bytes → Bytes → List Bytes
  | _, [], [] => []
  | _, c :: cs, [] => [(c :: cs).reverse]
  | pending + 1, [], _ :: rest => fieldsFuncAux f pending [] rest
  | pending + 1, c :: cs, b :: rest => fieldsFuncAux f pending (b :: c :: cs) rest
  | 0, cur, b :: rest =>
    let rs := decodeRune (b :: rest)
    if f rs.1 then
      match cur with
      | [] => fieldsFuncAux f (rs.2 - 1) [] rest
      | c :: cs => (c :: cs).reverse :: fieldsFuncAux f (rs.2 - 1) [] rest
    else
      fieldsFuncAux f (rs.2 - 1) (b :: cur) rest

/-- Library `bytes.Fields`: split around runs of white space (its ASCII fast
path computes the same result as `bytes.FieldsFunc(s, unicode.IsSpace)`). -/
def bytesFields (s : Bytes) : List Bytes := fieldsFuncAux isSpace 0 [] s

/-- Library `bytes.LastIndex(data, sep)` for a one-byte `sep`; `none` is `-1`. -/
def lastIndex : Bytes → UInt8 → Option Nat
  | [], _ => none
  | b :: rest, c =>
    match lastIndex rest c with
    | some i => some (i + 1)
    | none => if b = c then some 0 else none

/-- Value of a decimal digit byte. -/
def digit (b : UInt8) : Option Nat :=
  if 48 ≤ b.toNat ∧ b.toNat ≤ 57 then some (b.toNat - 48) else none

/-- Decimal value of a digit string, `none` on a byte that is no digit. -/
def parseDigits : Bytes → Nat → Option Nat
  | [], n => some n
  | b :: rest, n =>
    match digit b with
    | some d => parseDigits rest (n * 10 + d)
    | none => none

/-- Library `strconv.Atoi` for a 64-bit `int`: an optional sign, then one or
more decimal digits, of value within the `int` range; `none` is an error. -/
def atoi (s : Bytes) : Option Int :=
  let neg : Bool := s.head? = some 45
  let digits : Bytes := if s.head? = some 45 ∨ s.head? = some 43 then s.tail else s
  match digits with
  | [] => none
  | d :: ds =>
    match parseDigits (d :: ds) 0 with
    | none => none
    | some n =>
      if neg then (if n ≤ 2 ^ 63 then some (-(n : Int)) else none)
      else (if n < 2 ^ 63 then some (n : Int) else none)

/-! ## The collector -/

/-- A pair `([]byte, error)` returned by a reader; `none` is nil. -/
abbrev ReadResult := Option Bytes × Option GoError

/-- The struct `Processes`; each function field is given by what it returns. -/
structure Processes where
  /-- Result `(out, err)` of the call `p.execPS()`. -/
  execPS : Bytes × Option GoError
  /-- Result of `p.readProcFile(filename)`. -/
  readProcFile : String → ReadResult
  forcePS : Bool
  forceProc : Bool

/-- The host a census runs on. -/
structure Host where
  /-- Constant `runtime.GOOS`. -/
  goos : String
  /-- Result `(filenames, err)` of the call to `filepath.Glob`. -/
  glob : List String × Option GoError

/-- How a run over the table ends. -/
inductive Outcome where
  /-- The run reached its end (a loop body: the next iteration). -/
  | done (fields : Fields)
  /-- The function returned a non-nil error; the table is as left behind. -/
  | failed (fields : Fields) (err : GoError)
  /-- A run-time panic. -/
  | panicked (p : Panic)

/-- Lift the result of an increment to an outcome. -/
def Outcome.ofExcept : Except Panic Fields → Outcome
  | .ok fields => .done fields
  | .error p => .panicked p

/-- The bucket named by the `case` of `switch status[0]` in `gatherFromPS`
that the byte selects; `none` is the `default` case, which only logs. -/
def psBucket (c : UInt8) : Option String :=
  if c.toNat = 'W'.toNat then some "wait"
  else if c.toNat = 'U'.toNat ∨ c.toNat = 'D'.toNat ∨ c.toNat = 'L'.toNat then some "blocked"
  else if c.toNat = 'Z'.toNat then some "zombies"
  else if c.toNat = 'X'.toNat then some "dead"
  else if c.toNat = 'T'.toNat then some "stopped"
  else if c.toNat = 'R'.toNat then some "running"
  else if c.toNat = 'S'.toNat then some "sleeping"
  else if c.toNat = 'I'.toNat then some "idle"
  else if c.toNat = '?'.toNat then some "unknown"
  else none

/-- The `switch status[0]` of `gatherFromPS`: the selected case runs
`fields[b] = fields[b].(int64) + int64(1)` for its bucket `b`. -/
def psSwitch (fields : Fields) (c : UInt8) : Except Panic Fields :=
  match psBucket c with
  | some bucket => fields.incr bucket 1
  | none => .ok fields

/-- Body of the loop of `gatherFromPS` for the token `status` at index `i`. -/
def psBody (i : Nat) (status : Bytes) (fields : Fields) : Except Panic Fields :=
  if i = 0 ∧ status = bytesOf "STAT" then
    .ok fields
  else
    match status with
    | [] => .error (.indexOutOfRange 0 0)
    | c :: _ =>
      match psSwitch fields c with
      | .error p => .error p
      | .ok fields1 => fields1.incr "total" 1

/-- Loop `for i, status := range bytes.Fields(out)` from index `i` on. -/
def psLoop : Nat → List Bytes → Fields → Except Panic Fields
  | _, [], fields => .ok fields
  | i, status :: rest, fields =>
    match psBody i status fields with
    | .error p => .error p
    | .ok fields1 => psLoop (i + 1) rest fields1

/-- Source `gatherFromPS`. -/
def gatherFromPS (p : Processes) (fields : Fields) : Outcome :=
  match p.execPS with
  | (_, some err) => .failed fields err
  | (out, none) => Outcome.ofExcept (psLoop 0 (bytesFields out) fields)

/-- The bucket named by the `case` of `switch stats[0][0]` in
`gatherFromProc` that the byte selects; `none` is the `default` case. -/
def procBucket (c : UInt8) : Option String :=
  if c.toNat = 'R'.toNat then some "running"
  else if c.toNat = 'S'.toNat then some "sleeping"
  else if c.toNat = 'D'.toNat then some "blocked"
  else if c.toNat = 'Z'.toNat then some "zombies"
  else if c.toNat = 'X'.toNat then some "dead"
  else if c.toNat = 'T'.toNat ∨ c.toNat = 't'.toNat then some "stopped"
  else if c.toNat = 'W'.toNat then some "paging"
  else none

/-- The `switch stats[0][0]` of `gatherFromProc`: the selected case runs
`fields[b] = fields[b].(int64) + int64(1)` for its bucket `b`. -/
def procSwitch (fields : Fields) (c : UInt8) : Except Panic Fields :=
  match procBucket c with
  | some bucket => fields.incr bucket 1
  | none => .ok fields

/-- The loop body of `gatherFromProc` from `switch stats[0][0]` on: the state
code is counted, then `total`, then the thread count `stats[17]`. -/
def procStats (stats : List Bytes) (fields : Fields) : Outcome :=
  match stats with
  | [] => .panicked (.indexOutOfRange 0 0)
  | [] :: _ => .panicked (.indexOutOfRange 0 0)
  | (c :: _) :: _ =>
    match procSwitch fields c with
    | .error p => .panicked p
    | .ok fields1 =>
      match fields1.incr "total" 1 with
      | .error p => .panicked p
      | .ok fields2 =>
        match stats.get? 17 with
        | none => .panicked (.indexOutOfRange 17 stats.length)
        | some s =>
          match atoi s with
          | none => .done fields2
          | some threads => Outcome.ofExcept (fields2.incr "total_threads" threads)

/-- The part of the loop body of `gatherFromProc` that follows the read: the
record `data` of the file `filename` is cut after its last `)`, split into
fields and counted. -/
def procRecord (filename : String) (data : Bytes) (fields : Fields) : Outcome :=
  match lastIndex data ')'.toUInt8 with
  | none => .done fields
  | some i =>
    if data.length < i + 2 then .panicked (.sliceBounds (i + 2) data.length)
    else
      let stats := bytesFields (data.drop (i + 2))
      if stats.length < 3 then
        .failed fields (.message ("Something is terribly wrong with " ++ filename))
      else
        procStats stats fields

/-- Body of the loop of `gatherFromProc` for one file name. -/
def procBody (p : Processes) (filename : String) (fields : Fields) : Outcome :=
  match p.readProcFile filename with
  | (_, some err) => .failed fields err
  | (none, none) => .done fields
  | (some data, none) => procRecord filename data fields

/-- Loop `for _, filename := range filenames`. -/
def procLoop (p : Processes) : List String → Fields → Outcome
  | [], fields => .done fields
  | filename :: rest, fields =>
    match procBody p filename fields with
    | .done fields1 => procLoop p rest fields1
    | .failed fields1 err => .failed fields1 err
    | .panicked pn => .panicked pn

/-- Source `gatherFromProc`. -/
def gatherFromProc (h : Host) (p : Processes) (fields : Fields) : Outcome :=
  match h.glob with
  | (_, some err) => .failed fields err
  | (filenames, none) => procLoop p filenames fields

/-- Source `readProcFile`, over the result of `ioutil.ReadFile`. -/
def readProcFile (readFile : String → ReadResult) (filename : String) : ReadResult :=
  match readFile filename with
  | (_, some err) =>
    if isNotExist err then (none, none)
    else if isPathESRCH err then (none, none)
    else (none, some err)
  | (data, none) => (data, none)

/-- What a call of `Collect` yields: the pair `(datas, err)`, or a panic. -/
inductive Collected where
  /-- The pair returned; the nil slice of records is `[]`. -/
  | returned (datas : List Fields) (err : Option GoError)
  /-- A run-time panic. -/
  | panicked (p : Panic)

/-- The flag `usePS` as `Collect` computes it. -/
def usePS (h : Host) (p : Processes) : Bool :=
  let usePS := true
  let usePS := if h.goos = "linux" then false else usePS
  if p.forcePS then true
  else if p.forceProc then false
  else usePS

/-- Wrap-up of `Collect` after the parser has run. -/
def Collected.ofOutcome : Outcome → Collected
  | .failed _ err => .returned [] (some err)
  | .panicked pn => .panicked pn
  | .done fields => .returned [fields] none

/-- Source `Processes.Collect`. -/
def Collect (h : Host) (p : Processes) : Collected :=
  let fields := getEmptyFields h.goos
  if usePS h p then
    Collected.ofOutcome (gatherFromPS p fields)
  else
    Collected.ofOutcome (gatherFromProc h p fields)

/-! ## Vocabulary of the specification -/

/-- Two tables hold the same keys. -/
def Fields.sameKeys (a b : Fields) : Prop := ∀ k, (a k).isSome = (b k).isSome

/-- Every value of the table is zero. -/
def Fields.allZero (f : Fields) : Prop := ∀ k v, f k = some v → v = 0

/-- Buckets of every platform, as the specification lists them. -/
def universalBuckets : List String :=
  ["blocked", "zombies", "stopped", "running", "sleeping", "total", "unknown"]

/-- Buckets a platform adds, as the specification lists them. -/
def platformBuckets (goos : String) : List String :=
  if goos = "freebsd" then ["idle", "wait"]
  else if goos = "darwin" ∨ goos = "openbsd" then ["idle"]
  else if goos = "linux" then ["dead", "paging", "total_threads"]
  else []

/-- The table an outcome leaves behind holds the keys of `fields`. -/
def Outcome.keepsKeys : Outcome → Fields → Prop
  | .done fields1, fields => fields1.sameKeys fields
  | .failed fields1 _, fields => fields1.sameKeys fields
  | .panicked _, _ => True

/-- A host of the given platform on which no status file is enumerated. -/
def hostOf (goos : String) : Host := ⟨goos, ([], none)⟩

/-- A collector whose `ps` prints the given text and fails no call. -/
def psPrints (out : String) : Processes := ⟨(bytesOf out, none), fun _ => (none, none), false, false⟩

/-- The tokens the loop counts: all but a first token equal to `STAT`. -/
def countedTokens (tokens : List Bytes) : List Bytes :=
  if tokens.head? = some (bytesOf "STAT") then tokens.tail else tokens

/-- Whether the first byte of a token is one of the given characters. -/
def firstByteIn (codes : List Char) (token : Bytes) : Bool :=
  match token with
  | [] => false
  | c :: _ => decide (c.toNat ∈ codes.map Char.toNat)

/-- Number of tokens whose first byte is one of the given characters. -/
def countFirstByte (codes : List Char) (tokens : List Bytes) : Nat :=
  tokens.countP (firstByteIn codes)

/-- The state codes of each bucket of the command listing, as the
specification gives them. -/
def psStateCodes : List (String × List Char) :=
  [("wait", ['W']), ("blocked", ['U', 'D', 'L']), ("zombies", ['Z']), ("dead", ['X']),
    ("stopped", ['T']), ("running", ['R']), ("sleeping", ['S']), ("idle", ['I']),
    ("unknown", ['?'])]

/-- How much one counted token adds to the key `k` in `gatherFromPS`. -/
def psHit (k : String) (status : Bytes) : Nat :=
  match status with
  | [] => 0
  | c :: _ => (if psBucket c = some k then 1 else 0) + (if k = "total" then 1 else 0)

/-- The state codes of each bucket of the status files, as the specification
gives them. -/
def procStateCodes : List (String × List Char) :=
  [("running", ['R']), ("sleeping", ['S']), ("blocked", ['D']), ("zombies", ['Z']),
    ("dead", ['X']), ("stopped", ['T', 't']), ("paging", ['W'])]

/-- The bucket a mapping of state codes gives to a byte, if any. -/
def bucketOf (codes : List (String × List Char)) (c : UInt8) : Option String :=
  (codes.find? (fun kc => decide (c.toNat ∈ kc.2.map Char.toNat))).map Prod.fst

/-- The table with `delta` added, in `int64` arithmetic, to the entry `key`. -/
def Fields.add (fields : Fields) (key : String) (delta : Int) : Fields :=
  fun k => if k = key then (fields k).map (fun v => wrapInt64 (v + delta)) else fields k

/-- The table with one added to the bucket, if there is one. -/
def Fields.addBucket (fields : Fields) (bucket : Option String) : Fields :=
  match bucket with
  | some b => fields.add b 1
  | none => fields

/-- A status record `123 (proc name) S ...` whose thread count is `4`. -/
def sampleRecord : Bytes :=
  bytesOf "123 (proc name) S 1 2 3 4 5 6 7 8 9 10 11 12 13 14 15 16 4 18 19\n"

/-- A collector that reads the listed status files; a file that is not listed
has vanished. -/
def procReads (files : List (String × ReadResult)) : Processes :=
  ⟨([], none), fun name => (files.lookup name).getD (none, none), false, false⟩

/-- A host of the given platform that enumerates the given status files. -/
def hostWith (goos : String) (filenames : List String) : Host := ⟨goos, (filenames, none)⟩

/-- A status record that ends with the `)` of the process name. -/
def truncatedRecord : Bytes := bytesOf "1 (a)"

/-- A status record with two fields after the process name. -/
def shortRecord : Bytes := bytesOf "2 (b) S 1\n"

/-- A status record whose thread count is not a number. -/
def badThreadsRecord : Bytes :=
  bytesOf "123 (proc name) S 1 2 3 4 5 6 7 8 9 10 11 12 13 14 15 16 four 18 19\n"

/-- A collector with `forcePS` set whose `ps` prints the given text. -/
def forcedPS (out : String) : Processes :=
  ⟨(bytesOf out, none), fun _ => (none, none), true, false⟩

/-- A collector with `forceProc` set that reads the listed status files. -/
def forcedProc (files : List (String × ReadResult)) : Processes :=
  ⟨([], none), fun name => (files.lookup name).getD (none, none), false, true⟩

/-- A status record with three fields after the process name. -/
def threeFieldRecord : Bytes := bytesOf "1 (a) S 1 2\n"

/-- The status record `<pid> (<name>) <tail>`: the separator after the `)` is
one space. -/
def statusRecord (pid name tail : Bytes) : Bytes :=
  pid ++ bytesOf " (" ++ name ++ bytesOf ") " ++ tail

/-- One statement `fields[key] = fields[key].(int64) + delta`. -/
abbrev Incr := String × Int

/-- Increments run in order; an increment of a missing key panics. -/
def Fields.incrAll : List Incr → Fields → Except Panic Fields
  | [], fields => .ok fields
  | kd :: rest, fields =>
    match fields.incr kd.1 kd.2 with
    | .error pn => .error pn
    | .ok fields1 => Fields.incrAll rest fields1

/-- The table with every increment of the list added. -/
def Fields.addAll (fields : Fields) (incs : List Incr) : Fields :=
  incs.foldl (fun f kd => f.add kd.1 kd.2) fields

/-- The increment of the bucket a switch selects, if it selects one. -/
def bucketIncrs (bucket : Option String) : List Incr :=
  match bucket with
  | some b => [(b, 1)]
  | none => []

/-- The increment of `total_threads` for a thread-count field, if it parses. -/
def threadIncrs (s : Bytes) : List Incr :=
  match atoi s with
  | some n => [("total_threads", n)]
  | none => []

/-- The increments `procStats` performs on a field list when it runs to its
end; `none` when it panics whatever the table is. -/
def statsIncrs (stats : List Bytes) : Option (List Incr) :=
  match stats with
  | (c :: _) :: _ =>
    match stats.get? 17 with
    | none => none
    | some s => some (bucketIncrs (procBucket c) ++ ("total", 1) :: threadIncrs s)
  | _ => none

/-- The increments the loop body of `gatherFromProc` performs for a file when
it runs to its end; `none` when it returns an error or panics whatever the
table is. -/
def procIncrs (p : Processes) (filename : String) : Option (List Incr) :=
  match p.readProcFile filename with
  | (_, some _) => none
  | (none, none) => some []
  | (some data, none) =>
    match lastIndex data ')'.toUInt8 with
    | none => some []
    | some i =>
      if data.length < i + 2 then none
      else if (bytesFields (data.drop (i + 2))).length < 3 then none
      else statsIncrs (bytesFields (data.drop (i + 2)))

/-- The increments of a whole enumeration, file after file. -/
def allIncrs (p : Processes) : List String → Option (List Incr)
  | [] => some []
  | filename :: rest =>
    match procIncrs p filename, allIncrs p rest with
    | some a, some b => some (a ++ b)
    | _, _ => none

/-- The sum of the amounts a list of increments adds to the key `k`. -/
def sumFor (k : String) (incs : List Incr) : Int :=
  ((incs.filter (fun kd => decide (kd.1 = k))).map Prod.snd).sum

/-- The fields after the last `)` and the separator byte of the record of a
file, for a file whose read gave data that contains a `)`. -/
def recordStats (p : Processes) (filename : String) : Option (List Bytes) :=
  match p.readProcFile filename with
  | (some data, none) =>
    (lastIndex data ')'.toUInt8).map (fun i => bytesFields (data.drop (i + 2)))
  | _ => none

/-- The state code of the record of a file: the first byte of its field 0. -/
def stateByte (p : Processes) (filename : String) : Option UInt8 :=
  (recordStats p filename).bind (fun stats => stats.head?.bind List.head?)

/-- The thread count `strconv.Atoi` accepts in field 17 of the record of a
file, if there is one. -/
def threadField (p : Processes) (filename : String) : Option Int :=
  (recordStats p filename).bind (fun stats => (stats.get? 17).bind atoi)

/-- Whether the read of a file succeeded with data. -/
def readsData (p : Processes) (filename : String) : Bool :=
  match p.readProcFile filename with
  | (some _, none) => true
  | _ => false

/-- Whether the read of a file succeeded with data that contains a `)`. -/
def hasRecord (p : Processes) (filename : String) : Bool :=
  match p.readProcFile filename with
  | (some data, none) => decide (')'.toUInt8 ∈ data)
  | _ => false

/-- What a completed census adds to the key `k` for one file. -/
def fileAdds (p : Processes) (k : String) (filename : String) : Int :=
  (if (stateByte p filename).bind procBucket = some k then 1 else 0) +
  (if k = "total" ∧ (recordStats p filename).isSome = true then 1 else 0) +
  (if k = "total_threads" then (threadField p filename).getD 0 else 0)

/-- The table a run leaves behind when it returns, with or without an error. -/
def Outcome.leaves (o : Outcome) (fields : Fields) : Prop :=
  o = .done fields ∨ ∃ e, o = .failed fields e

/-- A status record whose thread count carries a minus sign. -/
def negativeThreadsRecord : Bytes :=
  bytesOf "123 (proc name) S 1 2 3 4 5 6 7 8 9 10 11 12 13 14 15 16 -5 18 19\n"

/-- The state buckets of a platform: every key of its table except `total`
and `total_threads`. -/
def stateKeys (goos : String) : List String :=
  (universalBuckets ++ platformBuckets goos).filter
    (fun k => decide (k ≠ "total" ∧ k ≠ "total_threads"))

/-- The sum of all state buckets of a table. -/
def bucketSum (goos : String) (result : Fields) : Int :=
  ((stateKeys goos).map (fun k => (result k).getD 0)).sum

/-- The bucket the switch of `gatherFromPS` selects for a token. -/
def tokenBucket (token : Bytes) : Option String :=
  match token with
  | c :: _ => psBucket c
  | [] => none

/-- The bucket the switch of `gatherFromProc` selects for the record of a file. -/
def recordBucket (p : Processes) (filename : String) : Option String :=
  (stateByte p filename).bind procBucket

/-- The number of counted tokens whose state code the specification's mapping
of the command listing does not give a bucket. -/
def unrecognizedTokens (tokens : List Bytes) : Nat :=
  (countedTokens tokens).countP (fun t =>
    match t with
    | c :: _ => (bucketOf psStateCodes c).isNone
    | [] => false)

/-- The number of files with a record whose state code the specification's
mapping of the status files does not give a bucket. -/
def unrecognizedRecords (p : Processes) (files : List String) : Nat :=
  files.countP (fun f =>
    match stateByte p f with
    | some c => (bucketOf procStateCodes c).isNone
    | none => false)

/-- The memory a call of `Collect` runs in: the struct its receiver `p` points
to, and the maps made so far. A value of type `map[string]interface{}` is a
reference to a map, here the index of the map in `maps`. -/
structure Store where
  /-- The struct `*p`. -/
  collector : Processes
  /-- The maps in memory, each at the index that refers to it. -/
  maps : List Fields

/-- The map a reference points to. -/
def Store.deref (s : Store) (ref : Nat) : Fields := (s.maps.get? ref).getD Fields.empty

/-- The statement `fields := getEmptyFields()`: the map literal makes a new map
and `fields` refers to it; nothing else in memory changes. -/
def Store.newFields (s : Store) (goos : String) : Nat × Store :=
  (s.maps.length, ⟨s.collector, s.maps ++ [getEmptyFields goos]⟩)

/-- How a call of `Collect` ends in memory: it returns `(datas, err)`, the
records being references into the memory it leaves, or it panics. -/
inductive Run where
  /-- The call returned, leaving the memory `after`. -/
  | returned (datas : List Nat) (err : Option GoError) (after : Store)
  /-- A run-time panic. -/
  | panicked (pn : Panic)

/-- The end of `Collect` once the parser has run on the map `fields` refers to.
The assignments `fields[key] = ...` of the parser have changed that map, and no
other memory, into the table the parser leaves; `datas = append(datas, fields)`
returns the reference. -/
def Store.afterParser (s : Store) (fields : Nat) : Outcome → Run
  | .failed table err => .returned [] (some err) ⟨s.collector, s.maps.set fields table⟩
  | .panicked pn => .panicked pn
  | .done table => .returned [fields] none ⟨s.collector, s.maps.set fields table⟩

/-- Source `Processes.Collect` as a step on the memory it runs in: the flags
and the function fields are read from the struct behind the receiver, the
parser is handed the reference `fields`. -/
def Store.Collect (h : Host) (s : Store) : Run :=
  let made := s.newFields h.goos
  let fields := made.1
  let s1 := made.2
  if usePS h s1.collector then
    s1.afterParser fields (gatherFromPS s1.collector (s1.deref fields))
  else
    s1.afterParser fields (gatherFromProc h s1.collector (s1.deref fields))

/-- What the caller of a run sees: the pair `(datas, err)` with each record
read from the memory the call left, or the panic. -/
def Run.outcome : Run → Collected
  | .returned datas err after => .returned (datas.map after.deref) err
  | .panicked pn => .panicked pn

/-- Two calls of `Collect` in sequence on one collector: the second runs in the
memory the first has left; there is no second call after a panic. -/
def collectTwice (h1 h2 : Host) (s : Store) : Run × Option Run :=
  match Store.Collect h1 s with
  | .returned datas err after => (.returned datas err after, some (Store.Collect h2 after))
  | .panicked pn => (.panicked pn, none)

/-- A memory that already holds a table with counts, as an earlier census
leaves it. -/
def usedStore : Store :=
  ⟨psPrints "STAT R S Z Q", [((getEmptyFields "darwin").add "total" 7).add "running" 3]⟩

/-! ## The state table: lemmas -/

theorem Fields.sameKeys_refl (a : Fields) : a.sameKeys a := fun _ => rfl

theorem Fields.sameKeys_trans {a b c : Fields} (h1 : a.sameKeys b) (h2 : b.sameKeys c) :
    a.sameKeys c := fun k => (h1 k).trans (h2 k)

theorem Fields.set_isSome (f : Fields) (key : String) (v : Int) (k : String) :
    ((f.set key v) k).isSome = true ↔ (k = key ∨ (f k).isSome = true) := by
  by_cases h : k = key <;> simp [Fields.set, h]

theorem Fields.allZero_empty : Fields.empty.allZero := by
  intro k v h; cases h

theorem Fields.allZero_set {f : Fields} (hf : f.allZero) (key : String) :
    (f.set key 0).allZero := by
  intro k v h
  by_cases hk : k = key
  · simp [Fields.set, hk] at h; exact h.symm
  · simp [Fields.set, hk] at h; exact hf k v h

theorem getEmptyFields_allZero (goos : String) : (getEmptyFields goos).allZero := by
  unfold getEmptyFields
  split_ifs <;> repeat first | exact Fields.allZero_empty | apply Fields.allZero_set

theorem getEmptyFields_isSome_iff (goos k : String) :
    (getEmptyFields goos k).isSome ↔ k ∈ universalBuckets ++ platformBuckets goos := by
  unfold getEmptyFields platformBuckets universalBuckets
  split_ifs <;>
    simp only [Fields.set_isSome, Fields.empty, Option.isSome_none, List.mem_cons,
      List.mem_append, List.mem_singleton, List.not_mem_nil, Bool.false_eq_true] <;>
    tauto

/-! ## C1: the zero table -/

/-- C1. For every platform identifier `goos`, a key `k` is in the table of
`getEmptyFields` exactly when it is one of the universal buckets or one of the
buckets the platform adds (`idle`, `wait` on freebsd; `idle` on darwin and
openbsd; `dead`, `paging`, `total_threads` on linux; none elsewhere), and every
value of the table is `0`. -/
theorem getEmptyFields_buckets (goos k : String) :
    ((getEmptyFields goos k).isSome ↔ k ∈ universalBuckets ++ platformBuckets goos) ∧
      ∀ v, getEmptyFields goos k = some v → v = 0 :=
  ⟨getEmptyFields_isSome_iff goos k, getEmptyFields_allZero goos k⟩

/-! ## C2: the parsers keep the key set -/

theorem Fields.incr_sameKeys {fields fields1 : Fields} {key : String} {delta : Int}
    (h : fields.incr key delta = .ok fields1) : fields1.sameKeys fields := by
  unfold Fields.incr at h
  cases hk : fields key with
  | none => rw [hk] at h; cases h
  | some v =>
    rw [hk] at h
    cases h
    intro k
    by_cases hkk : k = key
    · subst hkk; simp [Fields.set, hk]
    · simp [Fields.set, hkk]

theorem psSwitch_sameKeys {fields fields1 : Fields} {c : UInt8}
    (h : psSwitch fields c = .ok fields1) : fields1.sameKeys fields := by
  unfold psSwitch at h
  cases hb : psBucket c with
  | none => rw [hb] at h; cases h; exact Fields.sameKeys_refl _
  | some b => rw [hb] at h; exact Fields.incr_sameKeys h

theorem psBody_sameKeys {i : Nat} {status : Bytes} {fields fields1 : Fields}
    (h : psBody i status fields = .ok fields1) : fields1.sameKeys fields := by
  unfold psBody at h
  split_ifs at h
  · cases h; exact Fields.sameKeys_refl _
  · cases status with
    | nil => cases h
    | cons c cs =>
      simp only at h
      cases hs : psSwitch fields c with
      | error e => rw [hs] at h; cases h
      | ok f1 =>
        rw [hs] at h
        exact Fields.sameKeys_trans (Fields.incr_sameKeys h) (psSwitch_sameKeys hs)

theorem psLoop_sameKeys (tokens : List Bytes) :
    ∀ (i : Nat) (fields fields1 : Fields),
      psLoop i tokens fields = .ok fields1 → fields1.sameKeys fields := by
  induction tokens with
  | nil => intro i fields fields1 h; cases h; exact Fields.sameKeys_refl _
  | cons t rest ih =>
    intro i fields fields1 h
    unfold psLoop at h
    cases hb : psBody i t fields with
    | error e => rw [hb] at h; cases h
    | ok f1 =>
      rw [hb] at h
      exact Fields.sameKeys_trans (ih _ _ _ h) (psBody_sameKeys hb)

theorem gatherFromPS_keepsKeys (p : Processes) (fields : Fields) :
    (gatherFromPS p fields).keepsKeys fields := by
  unfold gatherFromPS
  rcases hp : p.execPS with ⟨out, _ | err⟩
  · simp only
    cases hl : psLoop 0 (bytesFields out) fields with
    | error e => simp [Outcome.ofExcept, Outcome.keepsKeys]
    | ok f1 => exact psLoop_sameKeys _ _ _ _ hl
  · exact Fields.sameKeys_refl _

theorem procSwitch_sameKeys {fields fields1 : Fields} {c : UInt8}
    (h : procSwitch fields c = .ok fields1) : fields1.sameKeys fields := by
  unfold procSwitch at h
  cases hb : procBucket c with
  | none => rw [hb] at h; cases h; exact Fields.sameKeys_refl _
  | some b => rw [hb] at h; exact Fields.incr_sameKeys h

theorem procStats_keepsKeys (stats : List Bytes) (fields : Fields) :
    (procStats stats fields).keepsKeys fields := by
  unfold procStats
  split
  · trivial
  · trivial
  · rename_i c _ _
    cases hs : procSwitch fields c with
    | error e => trivial
    | ok f1 =>
      have k1 : f1.sameKeys fields := procSwitch_sameKeys hs
      simp only
      cases ht : f1.incr "total" 1 with
      | error e => trivial
      | ok f2 =>
        have k2 : f2.sameKeys fields := Fields.sameKeys_trans (Fields.incr_sameKeys ht) k1
        simp only
        split
        · trivial
        · split
          · exact k2
          · rename_i threads _
            cases h3 : f2.incr "total_threads" threads with
            | error e => trivial
            | ok f3 => exact Fields.sameKeys_trans (Fields.incr_sameKeys h3) k2

theorem procRecord_keepsKeys (filename : String) (data : Bytes) (fields : Fields) :
    (procRecord filename data fields).keepsKeys fields := by
  unfold procRecord
  cases lastIndex data ')'.toUInt8 with
  | none => exact Fields.sameKeys_refl _
  | some i =>
    simp only
    split_ifs
    · trivial
    · exact Fields.sameKeys_refl _
    · exact procStats_keepsKeys _ fields

theorem Outcome.keepsKeys_trans {o : Outcome} {f g : Fields}
    (h : o.keepsKeys f) (hfg : f.sameKeys g) : o.keepsKeys g := by
  cases o with
  | done f1 => exact Fields.sameKeys_trans h hfg
  | failed f1 e => exact Fields.sameKeys_trans h hfg
  | panicked pn => trivial

theorem procBody_keepsKeys (p : Processes) (filename : String) (fields : Fields) :
    (procBody p filename fields).keepsKeys fields := by
  unfold procBody
  rcases p.readProcFile filename with ⟨_ | data, _ | err⟩
  · exact Fields.sameKeys_refl _
  · exact Fields.sameKeys_refl _
  · exact procRecord_keepsKeys filename data fields
  · exact Fields.sameKeys_refl _

theorem procLoop_keepsKeys (p : Processes) (filenames : List String) :
    ∀ fields : Fields, (procLoop p filenames fields).keepsKeys fields := by
  induction filenames with
  | nil => intro fields; exact Fields.sameKeys_refl _
  | cons filename rest ih =>
    intro fields
    unfold procLoop
    have hb := procBody_keepsKeys p filename fields
    cases hbody : procBody p filename fields with
    | done f1 =>
      rw [hbody] at hb
      exact Outcome.keepsKeys_trans (ih f1) hb
    | failed f1 e => rw [hbody] at hb; exact hb
    | panicked pn => trivial

theorem gatherFromProc_keepsKeys (h : Host) (p : Processes) (fields : Fields) :
    (gatherFromProc h p fields).keepsKeys fields := by
  unfold gatherFromProc
  rcases h.glob with ⟨filenames, _ | err⟩
  · exact procLoop_keepsKeys p filenames fields
  · exact Fields.sameKeys_refl _

theorem Collected.ofOutcome_returned {o : Outcome} {datas : List Fields}
    {err : Option GoError} (h : Collected.ofOutcome o = .returned datas err) :
    (∃ fields, o = .done fields ∧ datas = [fields] ∧ err = none) ∨
      (∃ fields e, o = .failed fields e ∧ datas = [] ∧ err = some e) := by
  cases o with
  | done f => cases h; exact Or.inl ⟨f, rfl, rfl, rfl⟩
  | failed f e => cases h; exact Or.inr ⟨f, e, rfl, rfl, rfl⟩
  | panicked pn => cases h

/-- C2. Whenever `Collect` returns a record, the record holds exactly the keys
of `getEmptyFields` for the platform; and whatever table it is started on,
neither `gatherFromPS` nor `gatherFromProc` leaves behind a table with a key
added or removed, whether it ends normally or with an error. -/
theorem Collect_keys (h : Host) (p : Processes) (datas : List Fields)
    (err : Option GoError) (record : Fields)
    (hc : Collect h p = .returned datas err) (hr : record ∈ datas) :
    record.sameKeys (getEmptyFields h.goos) ∧
      (∀ fields, (gatherFromPS p fields).keepsKeys fields) ∧
      (∀ fields, (gatherFromProc h p fields).keepsKeys fields) := by
  refine ⟨?_, gatherFromPS_keepsKeys p, gatherFromProc_keepsKeys h p⟩
  unfold Collect at hc
  simp only at hc
  split_ifs at hc
  · have hk := gatherFromPS_keepsKeys p (getEmptyFields h.goos)
    rcases Collected.ofOutcome_returned hc with ⟨f, ho, hd, _⟩ | ⟨f, e, ho, hd, _⟩
    · rw [ho] at hk; rw [hd] at hr; rw [List.mem_singleton.mp hr]; exact hk
    · rw [hd] at hr; cases hr
  · have hk := gatherFromProc_keepsKeys h p (getEmptyFields h.goos)
    rcases Collected.ofOutcome_returned hc with ⟨f, ho, hd, _⟩ | ⟨f, e, ho, hd, _⟩
    · rw [ho] at hk; rw [hd] at hr; rw [List.mem_singleton.mp hr]; exact hk
    · rw [hd] at hr; cases hr

theorem Collect_keys_witness :
    ∃ record, Collect (hostOf "darwin") (psPrints "STAT\nR\nS\nZ\nQ\n") = .returned [record] none ∧
      record.sameKeys (getEmptyFields "darwin") ∧ record "total" = some 4 :=
  ⟨_, rfl, (Collect_keys (hostOf "darwin") (psPrints "STAT\nR\nS\nZ\nQ\n") _ _ _ rfl
    (List.mem_singleton_self _)).1, by decide⟩

/-! ## C3, C4: what the command-listing parser counts -/

theorem wrapInt64_of_range {x : Int} (h0 : -2 ^ 63 ≤ x) (h1 : x < 2 ^ 63) : wrapInt64 x = x := by
  unfold wrapInt64
  norm_num at h0 h1 ⊢
  omega

/-- The cases of the switch of `gatherFromPS`, one disjunct each. -/
theorem psBucket_cases (c : UInt8) :
    (c.toNat = 87 ∧ psBucket c = some "wait") ∨
    ((c.toNat = 85 ∨ c.toNat = 68 ∨ c.toNat = 76) ∧ psBucket c = some "blocked") ∨
    (c.toNat = 90 ∧ psBucket c = some "zombies") ∨
    (c.toNat = 88 ∧ psBucket c = some "dead") ∨
    (c.toNat = 84 ∧ psBucket c = some "stopped") ∨
    (c.toNat = 82 ∧ psBucket c = some "running") ∨
    (c.toNat = 83 ∧ psBucket c = some "sleeping") ∨
    (c.toNat = 73 ∧ psBucket c = some "idle") ∨
    (c.toNat = 63 ∧ psBucket c = some "unknown") ∨
    ((c.toNat ≠ 87 ∧ c.toNat ≠ 85 ∧ c.toNat ≠ 68 ∧ c.toNat ≠ 76 ∧ c.toNat ≠ 90 ∧
        c.toNat ≠ 88 ∧ c.toNat ≠ 84 ∧ c.toNat ≠ 82 ∧ c.toNat ≠ 83 ∧ c.toNat ≠ 73 ∧
        c.toNat ≠ 63) ∧ psBucket c = none) := by
  unfold psBucket
  simp only [Char.reduceToNat]
  by_cases h1 : c.toNat = 87
  · rw [if_pos h1]; exact Or.inl ⟨h1, rfl⟩
  rw [if_neg h1]
  by_cases h2 : c.toNat = 85 ∨ c.toNat = 68 ∨ c.toNat = 76
  · rw [if_pos h2]; exact Or.inr (Or.inl ⟨h2, rfl⟩)
  rw [if_neg h2]
  by_cases h3 : c.toNat = 90
  · rw [if_pos h3]; exact Or.inr (Or.inr (Or.inl ⟨h3, rfl⟩))
  rw [if_neg h3]
  by_cases h4 : c.toNat = 88
  · rw [if_pos h4]; exact Or.inr (Or.inr (Or.inr (Or.inl ⟨h4, rfl⟩)))
  rw [if_neg h4]
  by_cases h5 : c.toNat = 84
  · rw [if_pos h5]; exact Or.inr (Or.inr (Or.inr (Or.inr (Or.inl ⟨h5, rfl⟩))))
  rw [if_neg h5]
  by_cases h6 : c.toNat = 82
  · rw [if_pos h6]; exact Or.inr (Or.inr (Or.inr (Or.inr (Or.inr (Or.inl ⟨h6, rfl⟩)))))
  rw [if_neg h6]
  by_cases h7 : c.toNat = 83
  · rw [if_pos h7]; exact Or.inr (Or.inr (Or.inr (Or.inr (Or.inr (Or.inr (Or.inl ⟨h7, rfl⟩))))))
  rw [if_neg h7]
  by_cases h8 : c.toNat = 73
  · rw [if_pos h8]
    exact Or.inr (Or.inr (Or.inr (Or.inr (Or.inr (Or.inr (Or.inr (Or.inl ⟨h8, rfl⟩)))))))
  rw [if_neg h8]
  by_cases h9 : c.toNat = 63
  · rw [if_pos h9]
    exact Or.inr (Or.inr (Or.inr (Or.inr (Or.inr (Or.inr (Or.inr (Or.inr (Or.inl ⟨h9, rfl⟩))))))))
  rw [if_neg h9]
  refine Or.inr (Or.inr (Or.inr (Or.inr (Or.inr (Or.inr (Or.inr (Or.inr (Or.inr ⟨?_, rfl⟩))))))))
  omega

theorem psBucket_stateCodes (kc : String × List Char) (hkc : kc ∈ psStateCodes) (c : UInt8) :
    psBucket c = some kc.1 ↔ c.toNat ∈ kc.2.map Char.toNat := by
  simp only [psStateCodes, List.mem_cons, List.mem_singleton, List.not_mem_nil, or_false] at hkc
  have hc := psBucket_cases c
  rcases hkc with h | h | h | h | h | h | h | h | h <;> subst h <;>
    simp only [List.map_cons, List.map_nil, List.mem_cons, List.mem_singleton,
      List.not_mem_nil, or_false, Char.reduceToNat] <;>
    rcases hc with ⟨h, e⟩ | ⟨h, e⟩ | ⟨h, e⟩ | ⟨h, e⟩ | ⟨h, e⟩ | ⟨h, e⟩ | ⟨h, e⟩ | ⟨h, e⟩ |
      ⟨h, e⟩ | ⟨h, e⟩ <;>
    rw [e] <;>
    simp only [Option.some.injEq, String.reduceEq, reduceCtorEq, false_iff, true_iff] <;>
    omega

theorem psBucket_ne_total (c : UInt8) : psBucket c ≠ some "total" := by
  rcases psBucket_cases c with ⟨_, e⟩ | ⟨_, e⟩ | ⟨_, e⟩ | ⟨_, e⟩ | ⟨_, e⟩ | ⟨_, e⟩ | ⟨_, e⟩ |
    ⟨_, e⟩ | ⟨_, e⟩ | ⟨_, e⟩ <;> rw [e] <;> simp

theorem stateCodes_ne_total (kc : String × List Char) (hkc : kc ∈ psStateCodes) :
    kc.1 ≠ "total" := by
  simp only [psStateCodes, List.mem_cons, List.mem_singleton, List.not_mem_nil, or_false] at hkc
  rcases hkc with h | h | h | h | h | h | h | h | h <;> subst h <;> simp

theorem Fields.incr_apply {fields fields1 : Fields} {key : String} {delta : Int}
    (h : fields.incr key delta = .ok fields1) :
    (∃ v, fields key = some v ∧ fields1 key = some (wrapInt64 (v + delta))) ∧
      ∀ k, k ≠ key → fields1 k = fields k := by
  unfold Fields.incr at h
  cases hk : fields key with
  | none => rw [hk] at h; cases h
  | some v =>
    rw [hk] at h
    cases h
    refine ⟨⟨v, rfl, by simp [Fields.set]⟩, ?_⟩
    intro k hne
    simp [Fields.set, hne]

theorem psHit_le_one (k : String) (status : Bytes) : psHit k status ≤ 1 := by
  unfold psHit
  cases status with
  | nil => simp
  | cons c cs =>
    simp only
    by_cases hk : k = "total"
    · subst hk
      rw [if_neg (psBucket_ne_total c)]
      simp
    · rw [if_neg hk]
      split_ifs <;> simp

theorem psBody_succ (i : Nat) (status : Bytes) (fields : Fields) :
    psBody (i + 1) status fields =
      match status with
      | [] => .error (.indexOutOfRange 0 0)
      | c :: _ =>
        match psSwitch fields c with
        | .error p => .error p
        | .ok fields1 => fields1.incr "total" 1 := by
  unfold psBody
  rw [if_neg (by simp)]

theorem psBody_zero (status : Bytes) (fields : Fields) :
    psBody 0 status fields =
      if status = bytesOf "STAT" then .ok fields else psBody 1 status fields := by
  by_cases h : status = bytesOf "STAT"
  · rw [if_pos h]; unfold psBody; rw [if_pos ⟨rfl, h⟩]
  · rw [if_neg h]; unfold psBody; rw [if_neg (by simp [h]), if_neg (by simp)]

/-- One counted token adds `psHit k` to the key `k`; a key the table lacks
stays absent and is not hit. -/
theorem psBody_hit (k : String) {i : Nat} {status : Bytes} {fields fields1 : Fields}
    (h : psBody (i + 1) status fields = .ok fields1) :
    status ≠ [] ∧
      (∀ m : Nat, fields k = some (m : Int) → (m : Int) + 1 < 2 ^ 63 →
        fields1 k = some ((m + psHit k status : Nat) : Int)) ∧
      (fields k = none → fields1 k = none ∧ psHit k status = 0) := by
  rw [psBody_succ] at h
  cases status with
  | nil => cases h
  | cons c cs =>
    refine ⟨by simp, ?_⟩
    simp only at h
    cases hs : psSwitch fields c with
    | error e => rw [hs] at h; cases h
    | ok f0 =>
      rw [hs] at h
      simp only at h
      obtain ⟨⟨vt, hvt, hvt1⟩, htot⟩ := Fields.incr_apply h
      have hwrap : ∀ m : Nat, (m : Int) + 1 < 2 ^ 63 → wrapInt64 ((m : Int) + 1) = (m : Int) + 1 := by
        intro m hm
        apply wrapInt64_of_range _ hm
        have : (0 : Int) ≤ m := Int.ofNat_nonneg m
        norm_num
        omega
      unfold psSwitch at hs
      unfold psHit
      simp only
      cases hb : psBucket c with
      | none =>
        rw [hb] at hs
        cases hs
        simp only [reduceCtorEq, if_false, Nat.zero_add]
        by_cases hk : k = "total"
        · subst hk
          refine ⟨?_, ?_⟩
          · intro m hm hlt
            rw [hm] at hvt; cases hvt
            rw [hvt1, if_pos rfl, hwrap m hlt]; rfl
          · intro hn; rw [hn] at hvt; cases hvt
        · rw [if_neg hk, htot k hk]
          exact ⟨fun m hm _ => by simpa using hm, fun hn => ⟨hn, rfl⟩⟩
      | some b =>
        rw [hb] at hs
        simp only at hs
        obtain ⟨⟨vb, hvb, hvb1⟩, hoth⟩ := Fields.incr_apply hs
        have hbt : b ≠ "total" := by
          intro hbt; rw [hbt] at hb; exact psBucket_ne_total c hb
        by_cases hk : k = "total"
        · subst hk
          have hne : ¬ (some b = some "total") := by simpa using hbt
          rw [if_neg hne, if_pos rfl]
          rw [hoth "total" (Ne.symm hbt)] at hvt
          refine ⟨?_, ?_⟩
          · intro m hm hlt
            rw [hm] at hvt; cases hvt
            rw [hvt1, hwrap m hlt]; simp
          · intro hn; rw [hn] at hvt; cases hvt
        · rw [if_neg hk, htot k hk]
          by_cases hkb : k = b
          · subst hkb
            rw [if_pos rfl]
            refine ⟨?_, ?_⟩
            · intro m hm hlt
              rw [hm] at hvb; cases hvb
              rw [hvb1, hwrap m hlt]; simp
            · intro hn; rw [hn] at hvb; cases hvb
          · have hne : ¬ (some b = some k) := by
              intro hh; exact hkb (Option.some.inj hh).symm
            rw [if_neg hne, hoth k hkb]
            exact ⟨fun m hm _ => by simpa using hm, fun hn => ⟨hn, rfl⟩⟩

/-- From index one on, the loop adds the hits of its tokens to each key. -/
theorem psLoop_hits (k : String) (tokens : List Bytes) :
    ∀ (i : Nat) (fields result : Fields), psLoop (i + 1) tokens fields = .ok result →
      (∀ t ∈ tokens, t ≠ []) ∧
      (∀ m : Nat, fields k = some (m : Int) → (m : Int) + tokens.length < 2 ^ 63 →
        result k = some ((m + (tokens.map (psHit k)).sum : Nat) : Int)) ∧
      (fields k = none → result k = none ∧ (tokens.map (psHit k)).sum = 0) := by
  induction tokens with
  | nil =>
    intro i fields result h
    cases h
    exact ⟨by simp, fun m hm _ => by simpa using hm, fun hn => ⟨hn, rfl⟩⟩
  | cons t rest ih =>
    intro i fields result h
    unfold psLoop at h
    cases hb : psBody (i + 1) t fields with
    | error e => rw [hb] at h; cases h
    | ok f1 =>
      rw [hb] at h
      simp only at h
      obtain ⟨hne, hsome, hnone⟩ := psBody_hit k hb
      obtain ⟨ihne, ihsome, ihnone⟩ := ih (i + 1) f1 result h
      refine ⟨?_, ?_, ?_⟩
      · intro t1 ht1
        rcases List.mem_cons.mp ht1 with h1 | h1
        · rw [h1]; exact hne
        · exact ihne t1 h1
      · intro m hm hlt
        have hle := psHit_le_one k t
        simp only [List.length_cons, Nat.cast_add, Nat.cast_one] at hlt
        have h1 := hsome m hm (by omega)
        have h2 := ihsome (m + psHit k t) h1 (by push_cast; omega)
        rw [h2, List.map_cons, List.sum_cons, Nat.add_assoc]
      · intro hn
        obtain ⟨h1, h0⟩ := hnone hn
        obtain ⟨h2, h3⟩ := ihnone h1
        exact ⟨h2, by rw [List.map_cons, List.sum_cons, h0, h3]⟩

theorem psLoop_succ (tokens : List Bytes) :
    ∀ (i j : Nat) (fields : Fields),
      psLoop (i + 1) tokens fields = psLoop (j + 1) tokens fields := by
  induction tokens with
  | nil => intro i j fields; rfl
  | cons t rest ih =>
    intro i j fields
    unfold psLoop
    rw [psBody_succ i, psBody_succ j]
    cases t with
    | nil => rfl
    | cons c cs =>
      simp only
      cases psSwitch fields c with
      | error e => rfl
      | ok f0 =>
        simp only
        cases f0.incr "total" 1 with
        | error e => rfl
        | ok f1 => exact ih (i + 1) (j + 1) f1

/-- The loop started at index zero is the loop over the counted tokens. -/
theorem psLoop_zero (tokens : List Bytes) (fields : Fields) :
    psLoop 0 tokens fields = psLoop 1 (countedTokens tokens) fields := by
  unfold countedTokens
  cases tokens with
  | nil => simp [psLoop]
  | cons t rest =>
    simp only [List.head?_cons, Option.some.injEq, List.tail_cons]
    rw [psLoop, psBody_zero]
    by_cases ht : t = bytesOf "STAT"
    · rw [if_pos ht, if_pos ht]
    · rw [if_neg ht, if_neg ht]
      conv_rhs => rw [psLoop]
      cases psBody 1 t fields with
      | error e => rfl
      | ok f1 => exact psLoop_succ rest 0 1 f1

theorem sum_psHit_stateCodes (kc : String × List Char) (hkc : kc ∈ psStateCodes)
    (tokens : List Bytes) :
    (tokens.map (psHit kc.1)).sum = countFirstByte kc.2 tokens := by
  unfold countFirstByte
  induction tokens with
  | nil => rfl
  | cons t rest ih =>
    rw [List.map_cons, List.sum_cons, ih, List.countP_cons, Nat.add_comm]
    congr 1
    unfold psHit firstByteIn
    cases t with
    | nil => simp
    | cons c cs =>
      simp only
      rw [if_neg (stateCodes_ne_total kc hkc), Nat.add_zero]
      by_cases hb : psBucket c = some kc.1
      · rw [if_pos hb, if_pos (by simpa using (psBucket_stateCodes kc hkc c).mp hb)]
      · rw [if_neg hb, if_neg]
        intro hd
        exact hb ((psBucket_stateCodes kc hkc c).mpr (by simpa using hd))

theorem sum_psHit_total (tokens : List Bytes) (hne : ∀ t ∈ tokens, t ≠ []) :
    (tokens.map (psHit "total")).sum = tokens.length := by
  induction tokens with
  | nil => rfl
  | cons t rest ih =>
    rw [List.map_cons, List.sum_cons, ih (fun t1 h1 => hne t1 (List.mem_cons_of_mem _ h1)),
      List.length_cons, Nat.add_comm]
    congr 1
    cases t with
    | nil => exact absurd rfl (hne [] (List.mem_cons_self _ _))
    | cons c cs =>
      unfold psHit
      simp only
      rw [if_neg (psBucket_ne_total c)]
      simp

theorem fieldsFuncAux_length (f : Nat → Bool) (s : Bytes) :
    ∀ (pending : Nat) (cur : Bytes),
      (fieldsFuncAux f pending cur s).length ≤ s.length + (if cur = [] then 0 else 1) := by
  induction s with
  | nil =>
    intro pending cur
    cases cur <;> simp [fieldsFuncAux]
  | cons b rest ih =>
    intro pending cur
    have ih0 := fun n => ih n []
    have ih1 := fun n c cs => ih n (c :: cs)
    simp only [if_true] at ih0
    simp only [reduceCtorEq, if_false] at ih1
    cases pending with
    | zero =>
      cases cur with
      | nil =>
        unfold fieldsFuncAux
        simp only [if_true, List.length_cons]
        split_ifs
        · have := ih0 ((decodeRune (b :: rest)).2 - 1)
          omega
        · have := ih1 ((decodeRune (b :: rest)).2 - 1) b []
          omega
      | cons c cs =>
        unfold fieldsFuncAux
        simp only [reduceCtorEq, if_false, List.length_cons]
        split_ifs
        · have := ih0 ((decodeRune (b :: rest)).2 - 1)
          simp only [List.length_cons]
          omega
        · have := ih1 ((decodeRune (b :: rest)).2 - 1) b (c :: cs)
          omega
    | succ n =>
      cases cur with
      | nil =>
        unfold fieldsFuncAux
        have := ih0 n
        simp only [if_true, List.length_cons]
        omega
      | cons c cs =>
        unfold fieldsFuncAux
        have := ih1 n b (c :: cs)
        simp only [reduceCtorEq, if_false, List.length_cons]
        omega

theorem bytesFields_length_le (s : Bytes) : (bytesFields s).length ≤ s.length := by
  have := fieldsFuncAux_length isSpace s 0 []
  simpa [bytesFields] using this

theorem getEmptyFields_zero_or_none (goos k : String) :
    getEmptyFields goos k = some 0 ∨ getEmptyFields goos k = none := by
  cases h : getEmptyFields goos k with
  | none => exact Or.inr rfl
  | some v => rw [getEmptyFields_allZero goos k v h]; exact Or.inl rfl

theorem getEmptyFields_total (goos : String) : getEmptyFields goos "total" = some 0 := by
  rcases getEmptyFields_zero_or_none goos "total" with h | h
  · exact h
  · have := (getEmptyFields_isSome_iff goos "total").mpr (by simp [universalBuckets])
    rw [h] at this
    cases this

theorem countedTokens_length_le (tokens : List Bytes) :
    (countedTokens tokens).length ≤ tokens.length := by
  unfold countedTokens
  split_ifs
  · simp
  · exact Nat.le_refl _

theorem countedTokens_length (tokens : List Bytes) :
    (countedTokens tokens).length =
      tokens.length - (if tokens.head? = some (bytesOf "STAT") then 1 else 0) := by
  unfold countedTokens
  split_ifs <;> simp

/-- A completed run of `gatherFromPS` is a completed loop over the counted
tokens of the output. -/
theorem gatherFromPS_done {p : Processes} {fields result : Fields}
    (h : gatherFromPS p fields = .done result) :
    psLoop 1 (countedTokens (bytesFields p.execPS.1)) fields = .ok result := by
  unfold gatherFromPS at h
  rcases hp : p.execPS with ⟨out, _ | err⟩
  · rw [hp] at h
    simp only at h
    rw [← psLoop_zero]
    cases hl : psLoop 0 (bytesFields out) fields with
    | error e => rw [hl] at h; cases h
    | ok f1 => rw [hl] at h; cases h; rfl
  · rw [hp] at h; cases h

/-- C3. Let `gatherFromPS` run to completion from the zero table of the
platform on an output of fewer than `2^63` bytes (every Go slice is that
short). For each bucket of the specification's mapping (`W` wait; `U`, `D`, `L`
blocked; `Z` zombies; `X` dead; `T` stopped; `R` running; `S` sleeping; `I`
idle; `?` unknown) that the platform's table holds, the bucket equals the
number of counted tokens (all tokens but a first token `STAT`) whose first byte
is one of its codes; a bucket the table lacks stays absent and no counted
token has one of its codes. A counted token whose first byte is none of these
codes only increments `total`. -/
theorem gatherFromPS_buckets (goos : String) (p : Processes) (result : Fields)
    (hlen : p.execPS.1.length < 2 ^ 63)
    (hrun : gatherFromPS p (getEmptyFields goos) = .done result) :
    (∀ kc ∈ psStateCodes,
      (getEmptyFields goos kc.1 = some 0 ∧
        result kc.1 =
          some ((countFirstByte kc.2 (countedTokens (bytesFields p.execPS.1)) : Nat) : Int)) ∨
      (getEmptyFields goos kc.1 = none ∧ result kc.1 = none ∧
        countFirstByte kc.2 (countedTokens (bytesFields p.execPS.1)) = 0)) ∧
    (∀ (c : UInt8) (cs : Bytes) (i : Nat) (fields : Fields),
      ¬ (i = 0 ∧ c :: cs = bytesOf "STAT") →
      (∀ kc ∈ psStateCodes, c.toNat ∉ kc.2.map Char.toNat) →
        psBody i (c :: cs) fields = fields.incr "total" 1) := by
  constructor
  · intro kc hkc
    obtain ⟨_, hsome, hnone⟩ := psLoop_hits kc.1 _ 0 _ _ (gatherFromPS_done hrun)
    rw [sum_psHit_stateCodes kc hkc] at hsome hnone
    rcases getEmptyFields_zero_or_none goos kc.1 with h0 | h0
    · left
      refine ⟨h0, ?_⟩
      have hb : ((0 : Nat) : Int) + (countedTokens (bytesFields p.execPS.1)).length < 2 ^ 63 := by
        have h1 := countedTokens_length_le (bytesFields p.execPS.1)
        have h2 := bytesFields_length_le p.execPS.1
        have h3 : (countedTokens (bytesFields p.execPS.1)).length < 2 ^ 63 := by omega
        have h4 : (((countedTokens (bytesFields p.execPS.1)).length : Nat) : Int) < 2 ^ 63 := by
          exact_mod_cast h3
        simpa using h4
      have := hsome 0 (by simpa using h0) hb
      simpa using this
    · right
      exact ⟨h0, hnone h0⟩
  · intro c cs i fields hhead hcodes
    have hb : psBucket c = none := by
      cases hbc : psBucket c with
      | none => rfl
      | some b =>
        exfalso
        rcases psBucket_cases c with ⟨h, e⟩ | ⟨h, e⟩ | ⟨h, e⟩ | ⟨h, e⟩ | ⟨h, e⟩ | ⟨h, e⟩ |
          ⟨h, e⟩ | ⟨h, e⟩ | ⟨h, e⟩ | ⟨h, e⟩
        · exact hcodes ("wait", ['W']) (by simp [psStateCodes]) (by simpa using h)
        · exact hcodes ("blocked", ['U', 'D', 'L']) (by simp [psStateCodes]) (by simpa using h)
        · exact hcodes ("zombies", ['Z']) (by simp [psStateCodes]) (by simpa using h)
        · exact hcodes ("dead", ['X']) (by simp [psStateCodes]) (by simpa using h)
        · exact hcodes ("stopped", ['T']) (by simp [psStateCodes]) (by simpa using h)
        · exact hcodes ("running", ['R']) (by simp [psStateCodes]) (by simpa using h)
        · exact hcodes ("sleeping", ['S']) (by simp [psStateCodes]) (by simpa using h)
        · exact hcodes ("idle", ['I']) (by simp [psStateCodes]) (by simpa using h)
        · exact hcodes ("unknown", ['?']) (by simp [psStateCodes]) (by simpa using h)
        · rw [e] at hbc; cases hbc
    unfold psBody
    rw [if_neg hhead]
    simp only [psSwitch, hb]

theorem gatherFromPS_buckets_witness :
    ∃ result, gatherFromPS (psPrints "STAT R S Z Q") (getEmptyFields "darwin") = .done result ∧
      result "running" = some 1 ∧ result "sleeping" = some 1 ∧ result "zombies" = some 1 ∧
      result "unknown" = some 0 ∧
      ((getEmptyFields "darwin" "running" = some 0 ∧
        result "running" = some ((countFirstByte ['R']
          (countedTokens (bytesFields (psPrints "STAT R S Z Q").execPS.1)) : Nat) : Int)) ∨
      (getEmptyFields "darwin" "running" = none ∧ result "running" = none ∧
        countFirstByte ['R']
          (countedTokens (bytesFields (psPrints "STAT R S Z Q").execPS.1)) = 0)) :=
  ⟨_, rfl, by decide, by decide, by decide, by decide,
    (gatherFromPS_buckets "darwin" (psPrints "STAT R S Z Q") _ (by decide) rfl).1
      ("running", ['R']) (by decide)⟩

/-- C4. After `gatherFromPS` has run to completion from the zero table of the
platform on an output of fewer than `2^63` bytes, `total` is the number of
tokens of the output, less one exactly when the first token is `STAT`: every
other token is counted, whatever its first byte. -/
theorem gatherFromPS_total (goos : String) (p : Processes) (result : Fields)
    (hlen : p.execPS.1.length < 2 ^ 63)
    (hrun : gatherFromPS p (getEmptyFields goos) = .done result) :
    result "total" =
      some (((bytesFields p.execPS.1).length -
        (if (bytesFields p.execPS.1).head? = some (bytesOf "STAT") then 1 else 0) : Nat) : Int) := by
  obtain ⟨hne, hsome, _⟩ := psLoop_hits "total" _ 0 _ _ (gatherFromPS_done hrun)
  rw [sum_psHit_total _ hne] at hsome
  have hb : ((0 : Nat) : Int) + (countedTokens (bytesFields p.execPS.1)).length < 2 ^ 63 := by
    have h1 := countedTokens_length_le (bytesFields p.execPS.1)
    have h2 := bytesFields_length_le p.execPS.1
    have h3 : (countedTokens (bytesFields p.execPS.1)).length < 2 ^ 63 := by omega
    have h4 : (((countedTokens (bytesFields p.execPS.1)).length : Nat) : Int) < 2 ^ 63 := by
      exact_mod_cast h3
    simpa using h4
  have := hsome 0 (by simpa using getEmptyFields_total goos) hb
  rw [this, countedTokens_length]
  simp

theorem gatherFromPS_total_witness :
    ∃ result, gatherFromPS (psPrints "STAT R S Z Q STAT") (getEmptyFields "freebsd") =
        .done result ∧
      result "total" = some 5 ∧
      result "total" =
        some (((bytesFields (psPrints "STAT R S Z Q STAT").execPS.1).length -
          (if (bytesFields (psPrints "STAT R S Z Q STAT").execPS.1).head? =
            some (bytesOf "STAT") then 1 else 0) : Nat) : Int) :=
  ⟨_, rfl, by decide,
    gatherFromPS_total "freebsd" (psPrints "STAT R S Z Q STAT") _ (by decide) rfl⟩

/-! ## C5: what one status record adds -/

/-- The cases of the switch of `gatherFromProc`, one disjunct each. -/
theorem procBucket_cases (c : UInt8) :
    (c.toNat = 82 ∧ procBucket c = some "running") ∨
    (c.toNat = 83 ∧ procBucket c = some "sleeping") ∨
    (c.toNat = 68 ∧ procBucket c = some "blocked") ∨
    (c.toNat = 90 ∧ procBucket c = some "zombies") ∨
    (c.toNat = 88 ∧ procBucket c = some "dead") ∨
    ((c.toNat = 84 ∨ c.toNat = 116) ∧ procBucket c = some "stopped") ∨
    (c.toNat = 87 ∧ procBucket c = some "paging") ∨
    ((c.toNat ≠ 82 ∧ c.toNat ≠ 83 ∧ c.toNat ≠ 68 ∧ c.toNat ≠ 90 ∧ c.toNat ≠ 88 ∧
        c.toNat ≠ 84 ∧ c.toNat ≠ 116 ∧ c.toNat ≠ 87) ∧ procBucket c = none) := by
  unfold procBucket
  simp only [Char.reduceToNat]
  by_cases h1 : c.toNat = 82
  · rw [if_pos h1]; exact Or.inl ⟨h1, rfl⟩
  rw [if_neg h1]
  by_cases h2 : c.toNat = 83
  · rw [if_pos h2]; exact Or.inr (Or.inl ⟨h2, rfl⟩)
  rw [if_neg h2]
  by_cases h3 : c.toNat = 68
  · rw [if_pos h3]; exact Or.inr (Or.inr (Or.inl ⟨h3, rfl⟩))
  rw [if_neg h3]
  by_cases h4 : c.toNat = 90
  · rw [if_pos h4]; exact Or.inr (Or.inr (Or.inr (Or.inl ⟨h4, rfl⟩)))
  rw [if_neg h4]
  by_cases h5 : c.toNat = 88
  · rw [if_pos h5]; exact Or.inr (Or.inr (Or.inr (Or.inr (Or.inl ⟨h5, rfl⟩))))
  rw [if_neg h5]
  by_cases h6 : c.toNat = 84 ∨ c.toNat = 116
  · rw [if_pos h6]; exact Or.inr (Or.inr (Or.inr (Or.inr (Or.inr (Or.inl ⟨h6, rfl⟩)))))
  rw [if_neg h6]
  by_cases h7 : c.toNat = 87
  · rw [if_pos h7]; exact Or.inr (Or.inr (Or.inr (Or.inr (Or.inr (Or.inr (Or.inl ⟨h7, rfl⟩))))))
  rw [if_neg h7]
  refine Or.inr (Or.inr (Or.inr (Or.inr (Or.inr (Or.inr (Or.inr ⟨?_, rfl⟩))))))
  omega

/-- The switch of `gatherFromProc` follows the specification's mapping. -/
theorem procBucket_eq_bucketOf (c : UInt8) : procBucket c = bucketOf procStateCodes c := by
  rcases procBucket_cases c with ⟨h, e⟩ | ⟨h, e⟩ | ⟨h, e⟩ | ⟨h, e⟩ | ⟨h, e⟩ | ⟨h, e⟩ |
    ⟨h, e⟩ | ⟨h, e⟩
  all_goals rw [e]
  all_goals simp only [bucketOf, procStateCodes, List.find?, List.map_cons, List.map_nil,
    List.mem_cons, List.mem_singleton, List.not_mem_nil, or_false, Char.reduceToNat]
  · simp [h]
  · simp [h]
  · simp [h]
  · simp [h]
  · simp [h]
  · rcases h with h | h <;> simp [h]
  · simp [h]
  · simp [h]

theorem procBucket_linux {c : UInt8} {b : String} (h : procBucket c = some b) :
    (getEmptyFields "linux" b).isSome = true ∧ b ≠ "total" ∧ b ≠ "total_threads" := by
  rcases procBucket_cases c with ⟨_, e⟩ | ⟨_, e⟩ | ⟨_, e⟩ | ⟨_, e⟩ | ⟨_, e⟩ | ⟨_, e⟩ |
    ⟨_, e⟩ | ⟨_, e⟩ <;> rw [e] at h <;> cases h <;> decide

theorem Fields.incr_some {fields : Fields} {key : String} {v : Int}
    (h : fields key = some v) (delta : Int) :
    fields.incr key delta = .ok (fields.add key delta) := by
  unfold Fields.incr
  rw [h]
  simp only
  congr 1
  funext k
  by_cases hk : k = key
  · subst hk; simp [Fields.set, Fields.add, h]
  · simp [Fields.set, Fields.add, hk]

theorem Fields.incr_isSome {fields : Fields} {key : String}
    (h : (fields key).isSome = true) (delta : Int) :
    fields.incr key delta = .ok (fields.add key delta) := by
  cases hv : fields key with
  | none => rw [hv] at h; cases h
  | some v => exact Fields.incr_some hv delta

theorem Fields.add_sameKeys (fields : Fields) (key : String) (delta : Int) :
    (fields.add key delta).sameKeys fields := by
  intro k
  unfold Fields.add
  split_ifs <;> simp

theorem Fields.addBucket_sameKeys (fields : Fields) (bucket : Option String) :
    (fields.addBucket bucket).sameKeys fields := by
  cases bucket with
  | none => exact Fields.sameKeys_refl _
  | some b => exact Fields.add_sameKeys fields b 1

theorem procSwitch_linux {fields : Fields} (hkeys : fields.sameKeys (getEmptyFields "linux"))
    (c : UInt8) : procSwitch fields c = .ok (fields.addBucket (procBucket c)) := by
  unfold procSwitch Fields.addBucket
  cases hb : procBucket c with
  | none => rfl
  | some b =>
    simp only
    exact Fields.incr_isSome (by rw [hkeys b]; exact (procBucket_linux hb).1) 1

theorem fieldsFuncAux_ne_nil (f : Nat → Bool) (s : Bytes) :
    ∀ (pending : Nat) (cur : Bytes), ∀ t ∈ fieldsFuncAux f pending cur s, t ≠ [] := by
  induction s with
  | nil =>
    intro pending cur t ht
    cases cur with
    | nil => simp [fieldsFuncAux] at ht
    | cons c cs =>
      simp only [fieldsFuncAux, List.mem_singleton] at ht
      rw [ht]
      simp
  | cons b rest ih =>
    intro pending cur t ht
    cases pending with
    | zero =>
      unfold fieldsFuncAux at ht
      simp only at ht
      split_ifs at ht
      · cases cur with
        | nil => exact ih _ _ t ht
        | cons c cs =>
          simp only [List.mem_cons] at ht
          rcases ht with ht | ht
          · rw [ht]; simp
          · exact ih _ _ t ht
      · exact ih _ _ t ht
    | succ n =>
      cases cur with
      | nil => unfold fieldsFuncAux at ht; exact ih _ _ t ht
      | cons c cs => unfold fieldsFuncAux at ht; exact ih _ _ t ht

/-- No field of `bytes.Fields` is empty. -/
theorem bytesFields_ne_nil (s : Bytes) : ∀ t ∈ bytesFields s, t ≠ [] :=
  fieldsFuncAux_ne_nil isSpace s 0 []

theorem bytesFields_head (s : Bytes) (h : bytesFields s ≠ []) :
    ∃ c cs rest, bytesFields s = (c :: cs) :: rest := by
  cases hs : bytesFields s with
  | nil => exact absurd hs h
  | cons t rest =>
    cases t with
    | nil => exact absurd rfl (bytesFields_ne_nil s [] (by rw [hs]; exact List.mem_cons_self _ _))
    | cons c cs => exact ⟨c, cs, rest, rfl⟩

theorem bytesFields_nil : bytesFields [] = [] := rfl

/-- On a table with the keys of linux, counting a record whose field list
starts with the byte `c` never panics on a bucket. -/
theorem procStats_linux {fields : Fields} (hkeys : fields.sameKeys (getEmptyFields "linux"))
    (c : UInt8) (cs : Bytes) (rest : List Bytes) :
    procStats ((c :: cs) :: rest) fields =
      match ((c :: cs) :: rest).get? 17 with
      | none => .panicked (.indexOutOfRange 17 ((c :: cs) :: rest).length)
      | some s =>
        match atoi s with
        | none => .done ((fields.addBucket (procBucket c)).add "total" 1)
        | some threads =>
          .done (((fields.addBucket (procBucket c)).add "total" 1).add "total_threads" threads) := by
  have k1 : (fields.addBucket (procBucket c)).sameKeys (getEmptyFields "linux") :=
    Fields.sameKeys_trans (Fields.addBucket_sameKeys _ _) hkeys
  have k2 : ((fields.addBucket (procBucket c)).add "total" 1).sameKeys (getEmptyFields "linux") :=
    Fields.sameKeys_trans (Fields.add_sameKeys _ _ _) k1
  have h1 : (fields.addBucket (procBucket c)).incr "total" 1 =
      .ok ((fields.addBucket (procBucket c)).add "total" 1) :=
    Fields.incr_isSome (by rw [k1 "total"]; decide) 1
  have h2 : ∀ threads, ((fields.addBucket (procBucket c)).add "total" 1).incr "total_threads" threads =
      .ok (((fields.addBucket (procBucket c)).add "total" 1).add "total_threads" threads) :=
    fun threads => Fields.incr_isSome (by rw [k2 "total_threads"]; decide) threads
  unfold procStats
  simp only [procSwitch_linux hkeys c, h1]
  cases ((c :: cs) :: rest).get? 17 with
  | none => rfl
  | some s =>
    simp only
    cases atoi s with
    | none => rfl
    | some threads => simp only [h2, Outcome.ofExcept]

/-- A record cut after its last `)` at index `i` whose remainder has a field at
position 17 is handed to `procStats`. -/
theorem procRecord_of_get {filename : String} {data : Bytes} {i : Nat} {s17 : Bytes}
    (fields : Fields) (hi : lastIndex data ')'.toUInt8 = some i)
    (h17 : (bytesFields (data.drop (i + 2))).get? 17 = some s17) :
    procRecord filename data fields = procStats (bytesFields (data.drop (i + 2))) fields := by
  have hlen : 17 < (bytesFields (data.drop (i + 2))).length := by
    by_contra hcon
    rw [List.get?_eq_none.mpr (by omega)] at h17
    cases h17
  unfold procRecord
  rw [hi]
  simp only
  rw [if_neg, if_neg (by omega)]
  intro hshort
  rw [List.drop_eq_nil_of_le (by omega), bytesFields_nil] at hlen
  simp at hlen

theorem Fields.counted_apply (fields : Fields) (c : UInt8) (n : Int) (k : String) (v : Int)
    (hk : fields k = some v) (hv : -2 ^ 63 ≤ v ∧ v < 2 ^ 63)
    (hone : k ≠ "total_threads" → v + 1 < 2 ^ 63)
    (hthreads : k = "total_threads" → -2 ^ 63 ≤ v + n ∧ v + n < 2 ^ 63) :
    (((fields.addBucket (procBucket c)).add "total" 1).add "total_threads" n) k =
      some (v + (if procBucket c = some k then 1 else 0) + (if k = "total" then 1 else 0) +
        (if k = "total_threads" then n else 0)) := by
  have hw1 : k ≠ "total_threads" → wrapInt64 (v + 1) = v + 1 := fun h =>
    wrapInt64_of_range (by have := hv.1; omega) (hone h)
  have hb : ∀ b, procBucket c = some b → b ≠ "total" ∧ b ≠ "total_threads" :=
    fun b h => (procBucket_linux h).2
  by_cases ht : k = "total_threads"
  · subst ht
    have hwn := wrapInt64_of_range (hthreads rfl).1 (hthreads rfl).2
    have hnb : ¬ procBucket c = some "total_threads" := fun h => (hb _ h).2 rfl
    have h1 : (fields.addBucket (procBucket c)) "total_threads" = some v := by
      unfold Fields.addBucket
      cases hbc : procBucket c with
      | none => exact hk
      | some b =>
        have : "total_threads" ≠ b := fun h => (hb b hbc).2 h.symm
        simp [Fields.add, this, hk]
    simp [Fields.add, h1, hwn, hnb]
  · have h0 : (((fields.addBucket (procBucket c)).add "total" 1).add "total_threads" n) k =
        ((fields.addBucket (procBucket c)).add "total" 1) k := by
      simp [Fields.add, ht]
    rw [h0, if_neg ht, add_zero]
    by_cases htot : k = "total"
    · subst htot
      have hnb : ¬ procBucket c = some "total" := fun h => (hb _ h).1 rfl
      have h1 : (fields.addBucket (procBucket c)) "total" = some v := by
        unfold Fields.addBucket
        cases hbc : procBucket c with
        | none => exact hk
        | some b =>
          have : "total" ≠ b := fun h => (hb b hbc).1 h.symm
          simp [Fields.add, this, hk]
      simp [Fields.add, h1, hw1 ht, hnb]
    · have h1 : ((fields.addBucket (procBucket c)).add "total" 1) k =
          (fields.addBucket (procBucket c)) k := by
        simp [Fields.add, htot]
      rw [h1, if_neg htot, add_zero]
      unfold Fields.addBucket
      cases hbc : procBucket c with
      | none => simp [hk]
      | some b =>
        by_cases hkb : k = b
        · subst hkb; simp [Fields.add, hk, hw1 ht]
        · have : ¬ (b = k) := fun h => hkb h.symm
          simp [Fields.add, hkb, hk, this]

/-- C5. On a table with the keys of linux, take a status record whose last `)`
is at index `i` and whose text from index `i + 2` on (after the `)` and one
separator byte) has a field at position 17 (so at least 18 fields) that
`strconv.Atoi` reads as `n`. Field 0 starts with some byte `c`, and the record
is processed without error to the table with one added to the bucket the
specification's mapping gives to `c` (`R` running, `S` sleeping, `D` blocked,
`Z` zombies, `X` dead, `T` or `t` stopped, `W` paging, no bucket otherwise), one
added to `total` and `n` added to `total_threads`, every other entry unchanged;
additions are those of `int64`, and are exact whenever the sums stay in range. -/
theorem procRecord_counts (filename : String) (data : Bytes) (fields : Fields) (i : Nat)
    (s17 : Bytes) (n : Int)
    (hkeys : fields.sameKeys (getEmptyFields "linux"))
    (hi : lastIndex data ')'.toUInt8 = some i)
    (h17 : (bytesFields (data.drop (i + 2))).get? 17 = some s17)
    (hn : atoi s17 = some n) :
    ∃ c cs, (bytesFields (data.drop (i + 2))).head? = some (c :: cs) ∧
      procRecord filename data fields =
        .done (((fields.addBucket (bucketOf procStateCodes c)).add "total" 1).add
          "total_threads" n) ∧
      ∀ k v, fields k = some v → (-2 ^ 63 ≤ v ∧ v < 2 ^ 63) →
        (k ≠ "total_threads" → v + 1 < 2 ^ 63) →
        (k = "total_threads" → -2 ^ 63 ≤ v + n ∧ v + n < 2 ^ 63) →
        (((fields.addBucket (bucketOf procStateCodes c)).add "total" 1).add
          "total_threads" n) k =
          some (v + (if bucketOf procStateCodes c = some k then 1 else 0) +
            (if k = "total" then 1 else 0) + (if k = "total_threads" then n else 0)) := by
  have hne : bytesFields (data.drop (i + 2)) ≠ [] := by
    intro h; rw [h] at h17; cases h17
  obtain ⟨c, cs, rest, hst⟩ := bytesFields_head _ hne
  refine ⟨c, cs, by rw [hst]; rfl, ?_, ?_⟩
  · rw [procRecord_of_get fields hi h17, ← procBucket_eq_bucketOf]
    rw [hst] at h17 ⊢
    rw [procStats_linux hkeys, h17]
    simp only [hn]
  · intro k v hk hv hone hthreads
    rw [← procBucket_eq_bucketOf]
    exact Fields.counted_apply fields c n k v hk hv hone hthreads

theorem procRecord_counts_witness :
    ∃ c cs, (bytesFields (sampleRecord.drop (14 + 2))).head? = some (c :: cs) ∧
      procRecord "/proc/123/stat" sampleRecord (getEmptyFields "linux") =
        .done ((((getEmptyFields "linux").addBucket (bucketOf procStateCodes c)).add
          "total" 1).add "total_threads" 4) ∧
      bucketOf procStateCodes c = some "sleeping" ∧
      ((((getEmptyFields "linux").addBucket (bucketOf procStateCodes c)).add
          "total" 1).add "total_threads" 4) "sleeping" = some 1 ∧
      ((((getEmptyFields "linux").addBucket (bucketOf procStateCodes c)).add
          "total" 1).add "total_threads" 4) "total" = some 1 ∧
      ((((getEmptyFields "linux").addBucket (bucketOf procStateCodes c)).add
          "total" 1).add "total_threads" 4) "total_threads" = some 4 := by
  obtain ⟨c, cs, h0, hrun, _⟩ :=
    procRecord_counts "/proc/123/stat" sampleRecord (getEmptyFields "linux") 14
      (bytesOf "4") 4 (Fields.sameKeys_refl _) (by decide) (by decide) (by decide)
  have hc : c = 'S'.toUInt8 := by
    have h1 : (bytesFields (sampleRecord.drop (14 + 2))).head? = some (bytesOf "S") := by decide
    rw [h1] at h0
    exact (List.cons.inj (Option.some.inj h0)).1.symm
  subst hc
  exact ⟨_, cs, h0, hrun, by decide, by decide, by decide, by decide⟩

/-! ## C6: a vanished process contributes nothing -/

theorem procBody_vanished {p : Processes} {filename : String}
    (hread : p.readProcFile filename = (none, none)) (fields : Fields) :
    procBody p filename fields = .done fields := by
  unfold procBody
  rw [hread]

theorem procLoop_append (p : Processes) (pre post : List String) :
    ∀ fields : Fields, procLoop p (pre ++ post) fields =
      match procLoop p pre fields with
      | .done fields1 => procLoop p post fields1
      | .failed fields1 err => .failed fields1 err
      | .panicked pn => .panicked pn := by
  induction pre with
  | nil => intro fields; rfl
  | cons f rest ih =>
    intro fields
    rw [List.cons_append, procLoop, procLoop]
    cases procBody p f fields with
    | done f1 => exact ih f1
    | failed f1 e => rfl
    | panicked pn => rfl

theorem procLoop_vanished (p : Processes) (pre post : List String) (filename : String)
    (hread : p.readProcFile filename = (none, none)) (fields : Fields) :
    procLoop p (pre ++ filename :: post) fields = procLoop p (pre ++ post) fields := by
  rw [procLoop_append, procLoop_append]
  cases procLoop p pre fields with
  | done f1 => simp only; rw [procLoop, procBody_vanished hread]
  | failed f1 e => rfl
  | panicked pn => rfl

theorem readProcFile_vanished (readFile : String → ReadResult) (filename : String)
    (data : Option Bytes) (e : GoError) (hread : readFile filename = (data, some e))
    (he : isNotExist e = true ∨ isPathESRCH e = true) :
    readProcFile readFile filename = (none, none) := by
  unfold readProcFile
  rw [hread]
  simp only
  rcases he with he | he
  · rw [if_pos he]
  · split_ifs <;> rfl

/-- C6. If `readProcFile` returns no data and no error for an enumerated file,
`gatherFromProc` ends exactly as it does on the enumeration with that file
removed: the same table (so `total` is not incremented for the file) or the same
failure. The reader `readProcFile` of the source returns no data and no error
when reading fails because the file does not exist or with `ESRCH`. -/
theorem gatherFromProc_vanished (goos : String) (p : Processes) (pre post : List String)
    (filename : String) (fields : Fields)
    (hread : p.readProcFile filename = (none, none)) :
    gatherFromProc (hostWith goos (pre ++ filename :: post)) p fields =
        gatherFromProc (hostWith goos (pre ++ post)) p fields ∧
      ∀ (readFile : String → ReadResult) (data : Option Bytes) (e : GoError),
        readFile filename = (data, some e) → (isNotExist e = true ∨ isPathESRCH e = true) →
          readProcFile readFile filename = (none, none) :=
  ⟨procLoop_vanished p pre post filename hread fields,
    fun readFile data e h he => readProcFile_vanished readFile filename data e h he⟩

theorem gatherFromProc_vanished_witness :
    (gatherFromProc (hostWith "linux" (["/proc/1/stat"] ++ "/proc/2/stat" :: ["/proc/3/stat"]))
        (procReads [("/proc/1/stat", (some sampleRecord, none)),
          ("/proc/3/stat", (some sampleRecord, none))]) (getEmptyFields "linux") =
      gatherFromProc (hostWith "linux" (["/proc/1/stat"] ++ ["/proc/3/stat"]))
        (procReads [("/proc/1/stat", (some sampleRecord, none)),
          ("/proc/3/stat", (some sampleRecord, none))]) (getEmptyFields "linux")) ∧
    readProcFile (fun _ => (none, some (GoError.pathError "read" "/proc/2/stat" ESRCH)))
      "/proc/2/stat" = (none, none) :=
  ⟨(gatherFromProc_vanished "linux" _ ["/proc/1/stat"] ["/proc/3/stat"] "/proc/2/stat"
      (getEmptyFields "linux") (by decide)).1,
   (gatherFromProc_vanished "linux"
      (procReads [("/proc/1/stat", (some sampleRecord, none)),
          ("/proc/3/stat", (some sampleRecord, none))])
      ["/proc/1/stat"] ["/proc/3/stat"] "/proc/2/stat"
      (getEmptyFields "linux") (by decide)).2 _ none _ rfl (Or.inr rfl)⟩

/-! ## C7: records with too few fields -/

/-- A record with at least one byte after its last `)` and fewer than three
fields after the separator byte makes the loop body return the error that
names the file. -/
theorem procRecord_too_few (filename : String) (data : Bytes) (fields : Fields) (i : Nat)
    (hi : lastIndex data ')'.toUInt8 = some i) (hsep : i + 2 ≤ data.length)
    (hfew : (bytesFields (data.drop (i + 2))).length < 3) :
    procRecord filename data fields =
      .failed fields (.message ("Something is terribly wrong with " ++ filename)) := by
  unfold procRecord
  rw [hi]
  simp only
  rw [if_neg (by omega), if_pos hfew]

/-- C7, at the failing input. The record `1 (a)` contains a `)` and has no
field after it, yet the census does not return the error that names the file:
the slice expression `data[i+2:]` is out of range and `Collect` panics. A record
with two fields after the process name does give that error. -/
theorem Collect_truncated_record :
    Collect (hostWith "linux" ["/proc/1/stat"])
        (procReads [("/proc/1/stat", (some truncatedRecord, none))]) =
      .panicked (.sliceBounds 6 5) ∧
    gatherFromProc (hostWith "linux" ["/proc/1/stat"])
        (procReads [("/proc/1/stat", (some truncatedRecord, none))]) (getEmptyFields "linux") =
      .panicked (.sliceBounds 6 5) ∧
    lastIndex truncatedRecord ')'.toUInt8 = some 4 ∧ truncatedRecord.length = 5 ∧
    Collect (hostWith "linux" ["/proc/2/stat"])
        (procReads [("/proc/2/stat", (some shortRecord, none))]) =
      .returned [] (some (.message "Something is terribly wrong with /proc/2/stat")) :=
  ⟨rfl, rfl, by decide, by decide, rfl⟩

/-! ## C8: a thread count that does not parse -/

theorem procBody_read {p : Processes} {filename : String} {data : Bytes}
    (hread : p.readProcFile filename = (some data, none)) (fields : Fields) :
    procBody p filename fields = procRecord filename data fields := by
  unfold procBody
  rw [hread]

theorem Fields.add_apply_ne (fields : Fields) {key k : String} (delta : Int) (h : k ≠ key) :
    (fields.add key delta) k = fields k := by
  simp [Fields.add, h]

/-- C8. On a table with the keys of linux, take an enumerated file whose record
has its last `)` at index `i` and, after the separator byte, a field at
position 17 (so at least 18 fields) that `strconv.Atoi` rejects. The record is
processed without failure: the table it leaves has one added to the bucket of
its state code and one added to `total`, `total_threads` is as it was, and
`gatherFromProc` goes on with the remaining files from that table. -/
theorem procRecord_bad_threads (p : Processes) (filename : String) (rest : List String)
    (data : Bytes) (fields : Fields) (i : Nat) (s17 : Bytes)
    (hkeys : fields.sameKeys (getEmptyFields "linux"))
    (hread : p.readProcFile filename = (some data, none))
    (hi : lastIndex data ')'.toUInt8 = some i)
    (h17 : (bytesFields (data.drop (i + 2))).get? 17 = some s17)
    (hn : atoi s17 = none) :
    ∃ c cs, (bytesFields (data.drop (i + 2))).head? = some (c :: cs) ∧
      procBody p filename fields =
        .done ((fields.addBucket (bucketOf procStateCodes c)).add "total" 1) ∧
      ((fields.addBucket (bucketOf procStateCodes c)).add "total" 1) "total_threads" =
        fields "total_threads" ∧
      procLoop p (filename :: rest) fields =
        procLoop p rest ((fields.addBucket (bucketOf procStateCodes c)).add "total" 1) := by
  have hne : bytesFields (data.drop (i + 2)) ≠ [] := by
    intro h; rw [h] at h17; cases h17
  obtain ⟨c, cs, tail, hst⟩ := bytesFields_head _ hne
  have hbody : procBody p filename fields =
      .done ((fields.addBucket (bucketOf procStateCodes c)).add "total" 1) := by
    rw [procBody_read hread, procRecord_of_get fields hi h17, ← procBucket_eq_bucketOf]
    rw [hst] at h17 ⊢
    rw [procStats_linux hkeys, h17]
    simp only [hn]
  refine ⟨c, cs, by rw [hst]; rfl, hbody, ?_, ?_⟩
  · rw [Fields.add_apply_ne _ _ (by decide), ← procBucket_eq_bucketOf]
    unfold Fields.addBucket
    cases hb : procBucket c with
    | none => rfl
    | some b =>
      exact Fields.add_apply_ne _ _ (fun h => (procBucket_linux hb).2.2 h.symm)
  · rw [procLoop, hbody]

theorem procRecord_bad_threads_witness :
    (∃ c cs, (bytesFields (badThreadsRecord.drop (14 + 2))).head? = some (c :: cs) ∧
      procBody (procReads [("/proc/123/stat", (some badThreadsRecord, none)),
          ("/proc/124/stat", (some sampleRecord, none))]) "/proc/123/stat"
          (getEmptyFields "linux") =
        .done (((getEmptyFields "linux").addBucket (bucketOf procStateCodes c)).add "total" 1) ∧
      (((getEmptyFields "linux").addBucket (bucketOf procStateCodes c)).add "total" 1)
          "total_threads" = (getEmptyFields "linux") "total_threads" ∧
      procLoop (procReads [("/proc/123/stat", (some badThreadsRecord, none)),
          ("/proc/124/stat", (some sampleRecord, none))])
          ("/proc/123/stat" :: ["/proc/124/stat"]) (getEmptyFields "linux") =
        procLoop (procReads [("/proc/123/stat", (some badThreadsRecord, none)),
          ("/proc/124/stat", (some sampleRecord, none))]) ["/proc/124/stat"]
          (((getEmptyFields "linux").addBucket (bucketOf procStateCodes c)).add "total" 1)) ∧
    ∃ result, gatherFromProc (hostWith "linux" ["/proc/123/stat", "/proc/124/stat"])
        (procReads [("/proc/123/stat", (some badThreadsRecord, none)),
          ("/proc/124/stat", (some sampleRecord, none))]) (getEmptyFields "linux") =
        .done result ∧
      result "sleeping" = some 2 ∧ result "total" = some 2 ∧ result "total_threads" = some 4 :=
  ⟨procRecord_bad_threads _ "/proc/123/stat" ["/proc/124/stat"] badThreadsRecord
    (getEmptyFields "linux") 14 (bytesOf "four") (Fields.sameKeys_refl _) (by decide)
    (by decide) (by decide) (by decide),
   ⟨_, rfl, by decide, by decide, by decide⟩⟩
/-! ## C9: the choice of the source -/

theorem usePS_eq (h : Host) (p : Processes) :
    usePS h p = true ↔ (p.forcePS = true ∨ (p.forceProc = false ∧ h.goos ≠ "linux")) := by
  unfold usePS
  cases hps : p.forcePS <;> cases hproc : p.forceProc <;> by_cases hg : h.goos = "linux" <;>
    simp [hg]

theorem gatherFromPS_congr {p p2 : Processes} (h : p2.execPS = p.execPS) (fields : Fields) :
    gatherFromPS p2 fields = gatherFromPS p fields := by
  unfold gatherFromPS
  rw [h]

theorem procLoop_congr {p p2 : Processes} (filenames : List String)
    (h : ∀ f ∈ filenames, p2.readProcFile f = p.readProcFile f) :
    ∀ fields : Fields, procLoop p2 filenames fields = procLoop p filenames fields := by
  induction filenames with
  | nil => intro fields; rfl
  | cons f rest ih =>
    intro fields
    have hb : procBody p2 f fields = procBody p f fields := by
      unfold procBody
      rw [h f (List.mem_cons_self _ _)]
    rw [procLoop, procLoop, hb]
    cases procBody p f fields with
    | done f1 => exact ih (fun g hg => h g (List.mem_cons_of_mem _ hg)) f1
    | failed f1 e => rfl
    | panicked pn => rfl

theorem gatherFromProc_congr {h h2 : Host} {p p2 : Processes} (hglob : h2.glob = h.glob)
    (hread : ∀ f ∈ h.glob.1, p2.readProcFile f = p.readProcFile f) (fields : Fields) :
    gatherFromProc h2 p2 fields = gatherFromProc h p fields := by
  unfold gatherFromProc
  rw [hglob]
  rcases hg : h.glob with ⟨filenames, _ | err⟩
  · rw [hg] at hread
    exact procLoop_congr filenames hread fields
  · rfl

/-- C9. `Collect` runs one parser on the fresh table of the platform:
`gatherFromPS` exactly when `forcePS` is set, or `forceProc` is unset and the
platform is not linux, and `gatherFromProc` otherwise. Its result does not
depend on the source that was not selected: with the same platform and flags,
it is the same for any two collectors with the same `ps` result when the
command listing is selected, and for any two hosts and collectors with the same
enumeration and the same contents of the enumerated files when it is not. -/
theorem Collect_selects (h : Host) (p : Processes) :
    (Collect h p =
      if p.forcePS = true ∨ (p.forceProc = false ∧ h.goos ≠ "linux") then
        Collected.ofOutcome (gatherFromPS p (getEmptyFields h.goos))
      else
        Collected.ofOutcome (gatherFromProc h p (getEmptyFields h.goos))) ∧
    ∀ (h2 : Host) (p2 : Processes),
      h2.goos = h.goos → p2.forcePS = p.forcePS → p2.forceProc = p.forceProc →
      ((p.forcePS = true ∨ (p.forceProc = false ∧ h.goos ≠ "linux")) →
        p2.execPS = p.execPS → Collect h2 p2 = Collect h p) ∧
      (¬ (p.forcePS = true ∨ (p.forceProc = false ∧ h.goos ≠ "linux")) →
        h2.glob = h.glob → (∀ f ∈ h.glob.1, p2.readProcFile f = p.readProcFile f) →
        Collect h2 p2 = Collect h p) := by
  constructor
  · unfold Collect
    simp only
    by_cases hu : usePS h p = true
    · rw [if_pos hu, if_pos ((usePS_eq h p).mp hu)]
    · rw [if_neg hu, if_neg (fun hc => hu ((usePS_eq h p).mpr hc))]
  · intro h2 p2 hgoos hfps hfproc
    have hu2 : usePS h2 p2 = usePS h p := by
      unfold usePS
      rw [hgoos, hfps, hfproc]
    constructor
    · intro hsel hexec
      have hu := (usePS_eq h p).mpr hsel
      unfold Collect
      simp only
      rw [hu2, if_pos hu, if_pos hu, hgoos, gatherFromPS_congr hexec]
    · intro hsel hglob hread
      have hu : ¬ usePS h p = true := fun hc => hsel ((usePS_eq h p).mp hc)
      unfold Collect
      simp only
      rw [hu2, if_neg hu, if_neg hu, hgoos, gatherFromProc_congr hglob hread]

theorem Collect_selects_witness :
    Collect (hostWith "linux" ["/proc/123/stat"])
        ⟨(bytesOf "STAT R S Z Q", none), fun _ => (some sampleRecord, none), true, true⟩ =
      Collect (hostWith "linux" ["/proc/1/stat"])
        ⟨(bytesOf "STAT R S Z Q", none), fun _ => (some truncatedRecord, none), true, true⟩ :=
  ((Collect_selects (hostWith "linux" ["/proc/1/stat"])
      ⟨(bytesOf "STAT R S Z Q", none), fun _ => (some truncatedRecord, none), true, true⟩).2
    (hostWith "linux" ["/proc/123/stat"])
    ⟨(bytesOf "STAT R S Z Q", none), fun _ => (some sampleRecord, none), true, true⟩
    rfl rfl rfl).1 (Or.inl rfl) rfl

/-! ## C10: what `Collect` returns -/

theorem usePS_false_Collect {h : Host} {p : Processes} (hu : usePS h p = false) :
    Collect h p = Collected.ofOutcome (gatherFromProc h p (getEmptyFields h.goos)) := by
  unfold Collect
  simp only
  rw [hu]
  rfl

theorem usePS_true_Collect {h : Host} {p : Processes} (hu : usePS h p = true) :
    Collect h p = Collected.ofOutcome (gatherFromPS p (getEmptyFields h.goos)) := by
  unfold Collect
  simp only
  rw [if_pos hu]

/-- When the files before `filename` are counted without failure and the loop
body fails on `filename`, the census returns that error and no record. -/
theorem Collect_of_failed {h : Host} {p : Processes} (hu : usePS h p = false)
    {pre post : List String} {filename : String} {fields1 fields2 : Fields} {e : GoError}
    (hglob : h.glob = (pre ++ filename :: post, none))
    (hpre : procLoop p pre (getEmptyFields h.goos) = .done fields1)
    (hbody : procBody p filename fields1 = .failed fields2 e) :
    Collect h p = .returned [] (some e) := by
  rw [usePS_false_Collect hu]
  unfold gatherFromProc
  rw [hglob]
  simp only
  rw [procLoop_append, hpre]
  simp only
  rw [procLoop, hbody]
  rfl

/-- C10. Whenever `Collect` returns, it returns either one record and no error
or no record and an error. The error is the one of the failing step: of
`execPS`; of the enumeration; of `readProcFile` on an enumerated file, the
files before it having been counted; or the error naming the file whose record
has at least one byte after its last `)` and fewer than three fields after the
separator byte. The reader `readProcFile` of the source returns unchanged any
error of the read that is neither a missing file nor `ESRCH`. -/
theorem Collect_outcomes (h : Host) (p : Processes) :
    (∀ datas err, Collect h p = .returned datas err →
      (err = none ∧ ∃ record, datas = [record]) ∨ (datas = [] ∧ ∃ e, err = some e)) ∧
    (∀ out e, usePS h p = true → p.execPS = (out, some e) →
      Collect h p = .returned [] (some e)) ∧
    (∀ filenames e, usePS h p = false → h.glob = (filenames, some e) →
      Collect h p = .returned [] (some e)) ∧
    (∀ pre filename post fields1 data e, usePS h p = false →
      h.glob = (pre ++ filename :: post, none) →
      procLoop p pre (getEmptyFields h.goos) = .done fields1 →
      p.readProcFile filename = (data, some e) →
      Collect h p = .returned [] (some e)) ∧
    (∀ pre filename post fields1 data i, usePS h p = false →
      h.glob = (pre ++ filename :: post, none) →
      procLoop p pre (getEmptyFields h.goos) = .done fields1 →
      p.readProcFile filename = (some data, none) →
      lastIndex data ')'.toUInt8 = some i → i + 2 ≤ data.length →
      (bytesFields (data.drop (i + 2))).length < 3 →
      Collect h p =
        .returned [] (some (.message ("Something is terribly wrong with " ++ filename)))) ∧
    (∀ (readFile : String → ReadResult) filename data e, readFile filename = (data, some e) →
      isNotExist e = false → isPathESRCH e = false →
      readProcFile readFile filename = (none, some e)) := by
  refine ⟨?_, ?_, ?_, ?_, ?_, ?_⟩
  · intro datas err hc
    have hshape : ∀ o : Outcome, Collected.ofOutcome o = .returned datas err →
        (err = none ∧ ∃ record, datas = [record]) ∨ (datas = [] ∧ ∃ e, err = some e) := by
      intro o ho
      rcases Collected.ofOutcome_returned ho with ⟨f, _, hd, he⟩ | ⟨f, e, _, hd, he⟩
      · exact Or.inl ⟨he, f, hd⟩
      · exact Or.inr ⟨hd, e, he⟩
    cases hu : usePS h p with
    | true => rw [usePS_true_Collect hu] at hc; exact hshape _ hc
    | false => rw [usePS_false_Collect hu] at hc; exact hshape _ hc
  · intro out e hu hexec
    rw [usePS_true_Collect hu]
    unfold gatherFromPS
    rw [hexec]
    rfl
  · intro filenames e hu hglob
    rw [usePS_false_Collect hu]
    unfold gatherFromProc
    rw [hglob]
    rfl
  · intro pre filename post fields1 data e hu hglob hpre hread
    have hbody : procBody p filename fields1 = .failed fields1 e := by
      unfold procBody
      rw [hread]
      cases data <;> rfl
    exact Collect_of_failed hu hglob hpre hbody
  · intro pre filename post fields1 data i hu hglob hpre hread hi hsep hfew
    have hbody : procBody p filename fields1 =
        .failed fields1 (.message ("Something is terribly wrong with " ++ filename)) := by
      rw [procBody_read hread]
      exact procRecord_too_few filename data fields1 i hi hsep hfew
    exact Collect_of_failed hu hglob hpre hbody
  · intro readFile filename data e hread h1 h2
    unfold readProcFile
    rw [hread]
    simp only [h1, h2]
    rfl

theorem Collect_outcomes_witness :
    Collect (hostWith "linux" ["/proc/123/stat", "/proc/2/stat", "/proc/124/stat"])
        (procReads [("/proc/123/stat", (some sampleRecord, none)),
          ("/proc/2/stat", (some shortRecord, none)),
          ("/proc/124/stat", (some sampleRecord, none))]) =
      .returned [] (some (.message ("Something is terribly wrong with " ++ "/proc/2/stat"))) ∧
    Collect (hostWith "linux" ["/proc/123/stat", "/proc/2/stat"])
        (procReads [("/proc/123/stat", (some sampleRecord, none)),
          ("/proc/2/stat", (none, some (.pathError "read" "/proc/2/stat" 13)))]) =
      .returned [] (some (.pathError "read" "/proc/2/stat" 13)) :=
  ⟨(Collect_outcomes (hostWith "linux" ["/proc/123/stat", "/proc/2/stat", "/proc/124/stat"])
      (procReads [("/proc/123/stat", (some sampleRecord, none)),
          ("/proc/2/stat", (some shortRecord, none)),
          ("/proc/124/stat", (some sampleRecord, none))])).2.2.2.2.1
      ["/proc/123/stat"] "/proc/2/stat" ["/proc/124/stat"] _ shortRecord 4 rfl rfl rfl
      (by decide) (by decide) (by decide) (by decide),
   (Collect_outcomes (hostWith "linux" ["/proc/123/stat", "/proc/2/stat"])
      (procReads [("/proc/123/stat", (some sampleRecord, none)),
          ("/proc/2/stat", (none, some (.pathError "read" "/proc/2/stat" 13)))])).2.2.2.1
      ["/proc/123/stat"] "/proc/2/stat" [] _ none _ rfl rfl rfl (by decide)⟩

/-! ## C11: buckets the table of the platform lacks -/

/-- C11, at the failing inputs. With the command listing forced on linux the
tokens `W` and `I` select the buckets `wait` and `idle`, which the table of
linux lacks; on darwin the token `X` selects `dead`; with the pseudo-file source
forced on darwin a well-formed record reaches `total_threads`. In each case the
assertion `fields[key].(int64)` panics on the missing key and `Collect`
returns nothing, although the source was available and no record was
malformed. -/
theorem Collect_missing_bucket :
    Collect (hostOf "linux") (forcedPS "STAT\nW\n") = .panicked (.interfaceConversion "wait") ∧
    Collect (hostOf "linux") (forcedPS "STAT\nI\n") = .panicked (.interfaceConversion "idle") ∧
    Collect (hostOf "darwin") (psPrints "STAT\nX\n") = .panicked (.interfaceConversion "dead") ∧
    Collect (hostWith "darwin" ["/proc/123/stat"])
        (forcedProc [("/proc/123/stat", (some sampleRecord, none))]) =
      .panicked (.interfaceConversion "total_threads") ∧
    getEmptyFields "linux" "wait" = none ∧ getEmptyFields "linux" "idle" = none ∧
    getEmptyFields "darwin" "dead" = none ∧ getEmptyFields "darwin" "total_threads" = none ∧
    psBucket 'W'.toUInt8 = some "wait" ∧ psBucket 'I'.toUInt8 = some "idle" ∧
    psBucket 'X'.toUInt8 = some "dead" :=
  ⟨rfl, rfl, rfl, rfl, by decide, by decide, by decide, by decide, by decide, by decide,
    by decide⟩

/-! ## C17: the thread count of a short record -/

/-- C17, at the failing input. The record `1 (a) S 1 2` has three fields after
the process name, so it passes the check `len(stats) < 3`; the state code and
`total` are counted and then the index expression `stats[17]` is out of range:
`Collect` panics. -/
theorem Collect_three_fields :
    Collect (hostWith "linux" ["/proc/1/stat"])
        (procReads [("/proc/1/stat", (some threeFieldRecord, none))]) =
      .panicked (.indexOutOfRange 17 3) ∧
    gatherFromProc (hostWith "linux" ["/proc/1/stat"])
        (procReads [("/proc/1/stat", (some threeFieldRecord, none))]) (getEmptyFields "linux") =
      .panicked (.indexOutOfRange 17 3) ∧
    lastIndex threeFieldRecord ')'.toUInt8 = some 4 ∧
    (bytesFields (threeFieldRecord.drop (4 + 2))).length = 3 :=
  ⟨rfl, rfl, by decide, by decide⟩

/-! ## C14: the process name does not matter -/

theorem lastIndex_eq_none {data : Bytes} {c : UInt8} (h : c ∉ data) :
    lastIndex data c = none := by
  induction data with
  | nil => rfl
  | cons b rest ih =>
    have hb : ¬ b = c := fun hbc => h (by rw [hbc]; exact List.mem_cons_self _ _)
    have hr : c ∉ rest := fun hm => h (List.mem_cons_of_mem _ hm)
    rw [lastIndex, ih hr]
    simp only [hb, if_false]

theorem lastIndex_cons_of_not_mem {rest : Bytes} {c : UInt8} (h : c ∉ rest) :
    lastIndex (c :: rest) c = some 0 := by
  rw [lastIndex, lastIndex_eq_none h]
  simp

/-- The last occurrence of a byte that does not occur in what follows it. -/
theorem lastIndex_append (front : Bytes) {back : Bytes} {c : UInt8} (h : c ∉ back) :
    lastIndex (front ++ c :: back) c = some front.length := by
  induction front with
  | nil => exact lastIndex_cons_of_not_mem h
  | cons b rest ih =>
    rw [List.cons_append, lastIndex, ih]
    rfl

theorem procLoop_congr_body {p1 p2 : Processes} (filenames : List String)
    (h : ∀ f ∈ filenames, ∀ fs : Fields, procBody p1 f fs = procBody p2 f fs) :
    ∀ fields : Fields, procLoop p1 filenames fields = procLoop p2 filenames fields := by
  induction filenames with
  | nil => intro fields; rfl
  | cons f rest ih =>
    intro fields
    rw [procLoop, procLoop, h f (List.mem_cons_self _ _) fields]
    cases procBody p2 f fields with
    | done f1 => exact ih (fun g hg => h g (List.mem_cons_of_mem _ hg)) f1
    | failed f1 e => rfl
    | panicked pn => rfl

/-- A status record whose tail has no `)` is cut right before its tail. -/
theorem procRecord_statusRecord (filename : String) (pid name tail : Bytes) (fields : Fields)
    (htail : ')'.toUInt8 ∉ tail) :
    procRecord filename (statusRecord pid name tail) fields =
      if (bytesFields tail).length < 3 then
        .failed fields (.message ("Something is terribly wrong with " ++ filename))
      else
        procStats (bytesFields tail) fields := by
  have hsp : ')'.toUInt8 ∉ (32 : UInt8) :: tail := by
    intro hm
    rcases List.mem_cons.mp hm with h | h
    · revert h; decide
    · exact htail h
  have hrec : statusRecord pid name tail =
      (pid ++ bytesOf " (" ++ name) ++ ')'.toUInt8 :: ((32 : UInt8) :: tail) := by
    unfold statusRecord
    have : bytesOf ") " = [')'.toUInt8, (32 : UInt8)] := by decide
    rw [this]
    simp
  have hi := lastIndex_append (pid ++ bytesOf " (" ++ name) hsp
  have hdrop : (statusRecord pid name tail).drop ((pid ++ bytesOf " (" ++ name).length + 2) =
      tail := by
    rw [hrec]
    have : (pid ++ bytesOf " (" ++ name).length + 2 =
        ((pid ++ bytesOf " (" ++ name) ++ [')'.toUInt8, (32 : UInt8)]).length := by
      simp only [List.length_append, List.length_cons, List.length_nil]
    rw [this]
    have h2 : (pid ++ bytesOf " (" ++ name) ++ ')'.toUInt8 :: ((32 : UInt8) :: tail) =
        ((pid ++ bytesOf " (" ++ name) ++ [')'.toUInt8, (32 : UInt8)]) ++ tail := by simp
    rw [h2, List.drop_left]
  have hlen : ¬ (statusRecord pid name tail).length <
      (pid ++ bytesOf " (" ++ name).length + 2 := by
    rw [hrec]
    simp only [List.length_append, List.length_cons]
    omega
  unfold procRecord
  rw [← hrec] at hi
  rw [hi]
  simp only
  rw [if_neg hlen, hdrop]

/-- C14. Two status records `<pid> (n1) t` and `<pid> (n2) t` whose tail `t`
contains no `)` have the same outcome in the loop body of `gatherFromProc`,
whatever the process names `n1` and `n2` (and the pid prefixes) are: the same
table, the same error, or the same panic; so `gatherFromProc` ends the same way
on two collectors that differ only in such names. -/
theorem procRecord_name_irrelevant (filename : String) (pid1 pid2 n1 n2 t : Bytes)
    (fields : Fields) (ht : ')'.toUInt8 ∉ t) :
    procRecord filename (statusRecord pid1 n1 t) fields =
        procRecord filename (statusRecord pid2 n2 t) fields ∧
      ∀ (p1 p2 : Processes) (pre post : List String),
        p1.readProcFile filename = (some (statusRecord pid1 n1 t), none) →
        p2.readProcFile filename = (some (statusRecord pid2 n2 t), none) →
        (∀ f, f ≠ filename → p2.readProcFile f = p1.readProcFile f) →
        ∀ goos, gatherFromProc (hostWith goos (pre ++ filename :: post)) p1 fields =
          gatherFromProc (hostWith goos (pre ++ filename :: post)) p2 fields := by
  have hrec : procRecord filename (statusRecord pid1 n1 t) fields =
      procRecord filename (statusRecord pid2 n2 t) fields := by
    rw [procRecord_statusRecord filename pid1 n1 t fields ht,
      procRecord_statusRecord filename pid2 n2 t fields ht]
  refine ⟨hrec, ?_⟩
  intro p1 p2 pre post h1 h2 hother goos
  have hbody : ∀ f ∈ pre ++ filename :: post, ∀ fs : Fields,
      procBody p1 f fs = procBody p2 f fs := by
    intro f _ fs
    by_cases hf : f = filename
    · subst hf
      rw [procBody_read h1, procBody_read h2,
        procRecord_statusRecord f pid1 n1 t fs ht, procRecord_statusRecord f pid2 n2 t fs ht]
    · unfold procBody
      rw [hother f hf]
  exact procLoop_congr_body _ hbody fields

theorem procRecord_name_irrelevant_witness :
    procRecord "/proc/7/stat"
        (statusRecord (bytesOf "7") (bytesOf "a) R (b")
          (bytesOf "S 1 2 3 4 5 6 7 8 9 10 11 12 13 14 15 16 3 18"))
        (getEmptyFields "linux") =
      procRecord "/proc/7/stat"
        (statusRecord (bytesOf "7") (bytesOf "kworker/0:1")
          (bytesOf "S 1 2 3 4 5 6 7 8 9 10 11 12 13 14 15 16 3 18"))
        (getEmptyFields "linux") ∧
    ∃ result, procRecord "/proc/7/stat"
        (statusRecord (bytesOf "7") (bytesOf "a) R (b")
          (bytesOf "S 1 2 3 4 5 6 7 8 9 10 11 12 13 14 15 16 3 18"))
        (getEmptyFields "linux") = .done result ∧
      result "sleeping" = some 1 ∧ result "running" = some 0 ∧
      result "total_threads" = some 3 :=
  ⟨(procRecord_name_irrelevant "/proc/7/stat" (bytesOf "7") (bytesOf "7") (bytesOf "a) R (b")
    (bytesOf "kworker/0:1") (bytesOf "S 1 2 3 4 5 6 7 8 9 10 11 12 13 14 15 16 3 18")
    (getEmptyFields "linux") (by decide)).1,
   ⟨_, rfl, by decide, by decide, by decide⟩⟩

/-! ## Runs as sequences of increments -/

theorem Fields.incrAll_append (a b : List Incr) :
    ∀ fields : Fields, Fields.incrAll (a ++ b) fields =
      match Fields.incrAll a fields with
      | .error pn => .error pn
      | .ok fields1 => Fields.incrAll b fields1 := by
  induction a with
  | nil => intro fields; rfl
  | cons kd rest ih =>
    intro fields
    rw [List.cons_append, Fields.incrAll, Fields.incrAll]
    cases fields.incr kd.1 kd.2 with
    | error pn => rfl
    | ok f1 => exact ih f1

theorem Fields.incrAll_single (key : String) (delta : Int) (fields : Fields) :
    Fields.incrAll [(key, delta)] fields = fields.incr key delta := by
  rw [Fields.incrAll]
  cases fields.incr key delta <;> rfl

theorem Fields.incrAll_bucket (bucket : Option String) (fields : Fields) :
    Fields.incrAll (bucketIncrs bucket) fields =
      match bucket with
      | some b => fields.incr b 1
      | none => .ok fields := by
  cases bucket with
  | none => rfl
  | some b => exact Fields.incrAll_single b 1 fields

theorem procStats_done_iff (stats : List Bytes) (fields f1 : Fields) :
    procStats stats fields = .done f1 ↔
      ∃ incs, statsIncrs stats = some incs ∧ Fields.incrAll incs fields = .ok f1 := by
  unfold procStats statsIncrs
  match stats with
  | [] => simp
  | [] :: _ => simp
  | (c :: cs) :: rest =>
    simp only
    cases h17 : ((c :: cs) :: rest).get? 17 with
    | none =>
      simp only [reduceCtorEq, false_and, exists_false, iff_false]
      cases procSwitch fields c with
      | error pn => simp
      | ok f0 =>
        simp only
        cases f0.incr "total" 1 <;> simp
    | some s =>
      simp only [Option.some.injEq, exists_eq_left']
      rw [Fields.incrAll_append, Fields.incrAll_bucket]
      unfold procSwitch
      cases hsw : (match procBucket c with
        | some bucket => fields.incr bucket 1
        | none => Except.ok fields) with
      | error pn => simp
      | ok f0 =>
        simp only [Fields.incrAll]
        cases f0.incr "total" 1 with
        | error pn => simp
        | ok f2 =>
          simp only [threadIncrs]
          cases atoi s with
          | none => simp [Fields.incrAll]
          | some n =>
            simp only [Fields.incrAll]
            cases f2.incr "total_threads" n <;> simp [Outcome.ofExcept]

theorem procBody_done_iff (p : Processes) (filename : String) (fields f1 : Fields) :
    procBody p filename fields = .done f1 ↔
      ∃ incs, procIncrs p filename = some incs ∧ Fields.incrAll incs fields = .ok f1 := by
  unfold procBody procIncrs
  rcases p.readProcFile filename with ⟨_ | data, _ | err⟩
  · simp [Fields.incrAll, eq_comm]
  · simp
  · simp only
    unfold procRecord
    cases lastIndex data ')'.toUInt8 with
    | none => simp [Fields.incrAll, eq_comm]
    | some i =>
      simp only
      by_cases h1 : data.length < i + 2
      · simp [h1]
      · rw [if_neg h1, if_neg h1]
        by_cases h2 : (bytesFields (data.drop (i + 2))).length < 3
        · simp [h2]
        · rw [if_neg h2, if_neg h2]
          exact procStats_done_iff _ fields f1
  · simp

theorem procLoop_done_iff (p : Processes) (filenames : List String) :
    ∀ fields result : Fields, procLoop p filenames fields = .done result ↔
      ∃ incs, allIncrs p filenames = some incs ∧ Fields.incrAll incs fields = .ok result := by
  induction filenames with
  | nil =>
    intro fields result
    simp [procLoop, allIncrs, Fields.incrAll, eq_comm]
  | cons f rest ih =>
    intro fields result
    rw [procLoop]
    constructor
    · intro h
      cases hb : procBody p f fields with
      | done f1 =>
        rw [hb] at h
        simp only at h
        obtain ⟨a, ha, hfa⟩ := (procBody_done_iff p f fields f1).mp hb
        obtain ⟨b, hb2, hfb⟩ := (ih f1 result).mp h
        refine ⟨a ++ b, ?_, ?_⟩
        · simp [allIncrs, ha, hb2]
        · rw [Fields.incrAll_append, hfa]
          exact hfb
      | failed f1 e => rw [hb] at h; cases h
      | panicked pn => rw [hb] at h; cases h
    · rintro ⟨incs, hincs, hrun⟩
      unfold allIncrs at hincs
      cases ha : procIncrs p f with
      | none => rw [ha] at hincs; cases hincs
      | some a =>
        cases hb : allIncrs p rest with
        | none => rw [ha, hb] at hincs; cases hincs
        | some b =>
          rw [ha, hb] at hincs
          simp only [Option.some.injEq] at hincs
          subst hincs
          rw [Fields.incrAll_append] at hrun
          cases hfa : Fields.incrAll a fields with
          | error pn => rw [hfa] at hrun; cases hrun
          | ok f1 =>
            rw [hfa] at hrun
            simp only at hrun
            rw [(procBody_done_iff p f fields f1).mpr ⟨a, ha, hfa⟩]
            exact (ih f1 result).mpr ⟨b, hb, hrun⟩

/-- A run of increments ends normally exactly when the table holds every key
it increments; the table it leaves is the table with all of them added. -/
theorem Fields.incrAll_ok_iff (incs : List Incr) :
    ∀ fields result : Fields, Fields.incrAll incs fields = .ok result ↔
      (∀ kd ∈ incs, (fields kd.1).isSome = true) ∧ result = fields.addAll incs := by
  induction incs with
  | nil =>
    intro fields result
    constructor
    · intro h
      cases h
      exact ⟨fun kd hmem => absurd hmem (List.not_mem_nil kd), rfl⟩
    · rintro ⟨_, h⟩
      rw [h]
      rfl
  | cons kd rest ih =>
    intro fields result
    rw [Fields.incrAll]
    cases hk : fields kd.1 with
    | none =>
      have : fields.incr kd.1 kd.2 = .error (.interfaceConversion kd.1) := by
        unfold Fields.incr; rw [hk]
      rw [this]
      simp [hk]
    | some v =>
      rw [Fields.incr_some hk]
      simp only
      rw [ih]
      have hsame := Fields.add_sameKeys fields kd.1 kd.2
      constructor
      · rintro ⟨h1, h2⟩
        refine ⟨?_, ?_⟩
        · intro kd2 hmem
          rcases List.mem_cons.mp hmem with h | h
          · rw [h, hk]; rfl
          · rw [← hsame kd2.1]; exact h1 kd2 h
        · rw [h2]; rfl
      · rintro ⟨h1, h2⟩
        refine ⟨?_, ?_⟩
        · intro kd2 hmem
          rw [hsame kd2.1]; exact h1 kd2 (List.mem_cons_of_mem _ hmem)
        · rw [h2]; rfl

/-! ## C15: the order of the enumeration -/

theorem wrapInt64_add (x y : Int) : wrapInt64 (wrapInt64 x + y) = wrapInt64 (x + y) := by
  unfold wrapInt64
  norm_num
  omega

theorem Fields.add_comm (fields : Fields) (k1 k2 : String) (d1 d2 : Int) :
    (fields.add k1 d1).add k2 d2 = (fields.add k2 d2).add k1 d1 := by
  funext k
  by_cases h1 : k = k1 <;> by_cases h2 : k = k2
  · simp only [Fields.add, if_pos h1, if_pos h2]
    cases fields k with
    | none => rfl
    | some v =>
      simp only [Option.map_some']
      rw [wrapInt64_add, wrapInt64_add, add_right_comm]
  · simp only [Fields.add, if_pos h1, if_neg h2]
  · simp only [Fields.add, if_neg h1, if_pos h2]
  · simp only [Fields.add, if_neg h1, if_neg h2]

theorem Fields.addAll_perm {incs1 incs2 : List Incr} (h : incs1.Perm incs2) (fields : Fields) :
    fields.addAll incs1 = fields.addAll incs2 :=
  List.Perm.foldl_eq' h (fun x _ y _ z => Fields.add_comm z x.1 y.1 x.2 y.2) fields

theorem Fields.incrAll_perm {incs1 incs2 : List Incr} (h : incs1.Perm incs2)
    {fields result : Fields} (hrun : Fields.incrAll incs1 fields = .ok result) :
    Fields.incrAll incs2 fields = .ok result := by
  obtain ⟨hk, hr⟩ := (Fields.incrAll_ok_iff incs1 fields result).mp hrun
  exact (Fields.incrAll_ok_iff incs2 fields result).mpr
    ⟨fun kd hmem => hk kd (h.symm.subset hmem), by rw [hr, Fields.addAll_perm h]⟩

theorem allIncrs_perm (p : Processes) {files1 files2 : List String} (h : files1.Perm files2) :
    ∀ incs1, allIncrs p files1 = some incs1 →
      ∃ incs2, allIncrs p files2 = some incs2 ∧ incs1.Perm incs2 := by
  induction h with
  | nil => intro incs1 h1; exact ⟨incs1, h1, List.Perm.refl _⟩
  | cons f _ ih =>
    intro incs1 h1
    unfold allIncrs at h1 ⊢
    cases ha : procIncrs p f with
    | none => rw [ha] at h1; cases h1
    | some a =>
      rw [ha] at h1
      rename_i l1 l2 _
      cases hb : allIncrs p l1 with
      | none => rw [hb] at h1; cases h1
      | some b =>
        rw [hb] at h1
        simp only [Option.some.injEq] at h1
        obtain ⟨b2, hb2, hperm⟩ := ih b hb
        rw [hb2]
        exact ⟨a ++ b2, rfl, by rw [← h1]; exact List.Perm.append_left a hperm⟩
  | swap f g l =>
    intro incs1 h1
    simp only [allIncrs] at h1 ⊢
    cases ha : procIncrs p f with
    | none => rw [ha] at h1; cases hg : procIncrs p g <;> rw [hg] at h1 <;> cases h1
    | some a =>
      cases hg : procIncrs p g with
      | none => rw [hg] at h1; cases h1
      | some c =>
        cases hl : allIncrs p l with
        | none => rw [ha, hg, hl] at h1; cases h1
        | some b =>
          rw [ha, hg, hl] at h1
          simp only [Option.some.injEq] at h1
          refine ⟨a ++ (c ++ b), rfl, ?_⟩
          rw [← h1, ← List.append_assoc, ← List.append_assoc]
          exact List.Perm.append_right b List.perm_append_comm
  | trans _ _ ih1 ih2 =>
    intro incs1 h1
    obtain ⟨incs2, h2, p12⟩ := ih1 incs1 h1
    obtain ⟨incs3, h3, p23⟩ := ih2 incs2 h2
    exact ⟨incs3, h3, p12.trans p23⟩

theorem procLoop_perm (p : Processes) {files1 files2 : List String} (h : files1.Perm files2)
    {fields result : Fields} (hrun : procLoop p files1 fields = .done result) :
    procLoop p files2 fields = .done result := by
  obtain ⟨incs1, h1, hr1⟩ := (procLoop_done_iff p files1 fields result).mp hrun
  obtain ⟨incs2, h2, hperm⟩ := allIncrs_perm p h incs1 h1
  exact (procLoop_done_iff p files2 fields result).mpr ⟨incs2, h2, Fields.incrAll_perm hperm hr1⟩

/-- C15. If `gatherFromProc` completes without error on an enumeration of
status files, it completes without error on every permutation of that
enumeration and leaves the identical table. -/
theorem gatherFromProc_perm (goos : String) (p : Processes) (files1 files2 : List String)
    (fields result : Fields) (hperm : files1.Perm files2)
    (hrun : gatherFromProc (hostWith goos files1) p fields = .done result) :
    gatherFromProc (hostWith goos files2) p fields = .done result :=
  procLoop_perm p hperm hrun

theorem gatherFromProc_perm_witness :
    ∃ result, gatherFromProc (hostWith "linux" ["/proc/1/stat", "/proc/2/stat", "/proc/3/stat"])
        (procReads [("/proc/1/stat", (some sampleRecord, none)),
          ("/proc/3/stat", (some badThreadsRecord, none))]) (getEmptyFields "linux") =
        .done result ∧
      gatherFromProc (hostWith "linux" ["/proc/3/stat", "/proc/2/stat", "/proc/1/stat"])
        (procReads [("/proc/1/stat", (some sampleRecord, none)),
          ("/proc/3/stat", (some badThreadsRecord, none))]) (getEmptyFields "linux") =
        .done result ∧
      result "total" = some 2 ∧ result "total_threads" = some 4 :=
  ⟨_, rfl,
    gatherFromProc_perm "linux" _ ["/proc/1/stat", "/proc/2/stat", "/proc/3/stat"]
      ["/proc/3/stat", "/proc/2/stat", "/proc/1/stat"] (getEmptyFields "linux") _
      (by decide) rfl,
    by decide, by decide⟩

/-! ## What a completed run adds to each key -/

theorem sumFor_nil (k : String) : sumFor k [] = 0 := rfl

theorem sumFor_cons (k : String) (kd : Incr) (rest : List Incr) :
    sumFor k (kd :: rest) = (if kd.1 = k then kd.2 else 0) + sumFor k rest := by
  unfold sumFor
  by_cases h : kd.1 = k
  · simp [List.filter_cons, h]
  · simp [List.filter_cons, h]

theorem sumFor_append (k : String) (a b : List Incr) :
    sumFor k (a ++ b) = sumFor k a + sumFor k b := by
  unfold sumFor
  simp [List.filter_append]

theorem wrapInt64_range (x : Int) : -2 ^ 63 ≤ wrapInt64 x ∧ wrapInt64 x < 2 ^ 63 := by
  unfold wrapInt64
  norm_num
  omega

theorem Fields.addAll_cons (fields : Fields) (kd : Incr) (rest : List Incr) :
    fields.addAll (kd :: rest) = (fields.add kd.1 kd.2).addAll rest := rfl

/-- The entry of a key the table holds, after a list of increments. -/
theorem Fields.addAll_apply_some (incs : List Incr) :
    ∀ (fields : Fields) (k : String) (v : Int), fields k = some v →
      -2 ^ 63 ≤ v → v < 2 ^ 63 →
      (fields.addAll incs) k = some (wrapInt64 (v + sumFor k incs)) := by
  induction incs with
  | nil =>
    intro fields k v hk h0 h1
    rw [sumFor_nil, add_zero, wrapInt64_of_range h0 h1]
    exact hk
  | cons kd rest ih =>
    intro fields k v hk h0 h1
    rw [Fields.addAll_cons, sumFor_cons]
    by_cases hkd : kd.1 = k
    · have hv : (fields.add kd.1 kd.2) k = some (wrapInt64 (v + kd.2)) := by
        simp [Fields.add, hkd, hk]
      rw [ih _ k _ hv (wrapInt64_range _).1 (wrapInt64_range _).2, wrapInt64_add, if_pos hkd,
        add_assoc]
    · have hne : k ≠ kd.1 := fun h => hkd h.symm
      have hv : (fields.add kd.1 kd.2) k = some v := by
        rw [Fields.add_apply_ne _ _ hne]; exact hk
      rw [ih _ k _ hv h0 h1, if_neg hkd, zero_add]

theorem Fields.addAll_sameKeys (incs : List Incr) :
    ∀ fields : Fields, (fields.addAll incs).sameKeys fields := by
  induction incs with
  | nil => intro fields; exact Fields.sameKeys_refl _
  | cons kd rest ih =>
    intro fields
    exact Fields.sameKeys_trans (ih _) (Fields.add_sameKeys fields kd.1 kd.2)

/-- No increment of a completed run touches a key the table lacks. -/
theorem sumFor_of_none {incs : List Incr} {fields result : Fields} {k : String}
    (hrun : Fields.incrAll incs fields = .ok result) (hk : fields k = none) :
    sumFor k incs = 0 ∧ result k = none := by
  obtain ⟨hkeys, hres⟩ := (Fields.incrAll_ok_iff incs fields result).mp hrun
  constructor
  · unfold sumFor
    have : incs.filter (fun kd => decide (kd.1 = k)) = [] := by
      rw [List.filter_eq_nil_iff]
      intro kd hmem hdec
      have h1 := hkeys kd hmem
      rw [of_decide_eq_true hdec, hk] at h1
      cases h1
    rw [this]
    rfl
  · have h2 := Fields.addAll_sameKeys incs fields k
    rw [hres]
    rw [hk] at h2
    cases hv : (fields.addAll incs) k with
    | none => rfl
    | some v => rw [hv] at h2; cases h2

/-- The increments of a file whose loop body runs to its end: none for a file
without a record, else those of the state code, of `total` and of the thread
count. -/
theorem procIncrs_cases {p : Processes} {filename : String} {a : List Incr}
    (h : procIncrs p filename = some a) :
    (recordStats p filename = none ∧ a = []) ∨
      ∃ c cs rest s, recordStats p filename = some ((c :: cs) :: rest) ∧
        ((c :: cs) :: rest).get? 17 = some s ∧
        a = bucketIncrs (procBucket c) ++ ("total", 1) :: threadIncrs s := by
  unfold procIncrs at h
  unfold recordStats
  rcases hr : p.readProcFile filename with ⟨_ | data, _ | err⟩
  · rw [hr] at h
    simp only [Option.some.injEq] at h
    exact Or.inl ⟨rfl, h.symm⟩
  · rw [hr] at h; cases h
  · rw [hr] at h
    simp only at h ⊢
    cases hi : lastIndex data ')'.toUInt8 with
    | none =>
      rw [hi] at h
      simp only [Option.some.injEq] at h
      exact Or.inl ⟨rfl, h.symm⟩
    | some i =>
      rw [hi] at h
      simp only at h
      by_cases h1 : data.length < i + 2
      · rw [if_pos h1] at h; cases h
      · rw [if_neg h1] at h
        by_cases h2 : (bytesFields (data.drop (i + 2))).length < 3
        · rw [if_pos h2] at h; cases h
        · rw [if_neg h2] at h
          right
          unfold statsIncrs at h
          match hst : bytesFields (data.drop (i + 2)) with
          | [] => rw [hst] at h; cases h
          | [] :: _ => rw [hst] at h; cases h
          | (c :: cs) :: rest =>
            rw [hst] at h
            simp only at h
            cases h17 : ((c :: cs) :: rest).get? 17 with
            | none => rw [h17] at h; cases h
            | some s =>
              rw [h17] at h
              simp only [Option.some.injEq] at h
              exact ⟨c, cs, rest, s, by simp only [Option.map_some', hst], h17, h.symm⟩
  · rw [hr] at h; cases h

theorem sumFor_bucketIncrs (k : String) (b : Option String) :
    sumFor k (bucketIncrs b) = if b = some k then 1 else 0 := by
  cases b with
  | none => simp [bucketIncrs, sumFor_nil]
  | some b1 =>
    unfold bucketIncrs
    simp only
    rw [sumFor_cons, sumFor_nil, add_zero]
    by_cases h : b1 = k
    · simp [h]
    · simp [h]

theorem sumFor_threadIncrs (k : String) (s : Bytes) :
    sumFor k (threadIncrs s) = if k = "total_threads" then (atoi s).getD 0 else 0 := by
  unfold threadIncrs
  cases atoi s with
  | none => simp [sumFor_nil]
  | some n =>
    simp only
    rw [sumFor_cons, sumFor_nil, add_zero]
    by_cases h : k = "total_threads"
    · simp [h]
    · have : ¬ "total_threads" = k := fun hh => h hh.symm
      simp [h, this]

/-- What the increments of one file add to the key `k`. -/
theorem procIncrs_sumFor {p : Processes} {filename : String} {a : List Incr}
    (h : procIncrs p filename = some a) (k : String) :
    sumFor k a =
      (if (stateByte p filename).bind procBucket = some k then 1 else 0) +
      (if k = "total" ∧ (recordStats p filename).isSome = true then 1 else 0) +
      (if k = "total_threads" then (threadField p filename).getD 0 else 0) := by
  rcases procIncrs_cases h with ⟨hr, ha⟩ | ⟨c, cs, rest, s, hr, h17, ha⟩
  · rw [ha, sumFor_nil]
    simp [stateByte, threadField, hr]
  · rw [ha, sumFor_append, sumFor_cons, sumFor_bucketIncrs, sumFor_threadIncrs]
    have h1 : (stateByte p filename).bind procBucket = procBucket c := by
      simp [stateByte, hr]
    have h2 : threadField p filename = atoi s := by
      simp only [threadField, hr, Option.some_bind, h17]
    rw [h1, h2, hr]
    by_cases hk : k = "total"
    · subst hk
      simp
    · have : ¬ "total" = k := fun hh => hk hh.symm
      simp [hk, this]

/-- What the increments of a whole enumeration add to the key `k`. -/
theorem allIncrs_sumFor (p : Processes) (k : String) (files : List String) :
    ∀ incs, allIncrs p files = some incs →
      sumFor k incs =
        (files.map (fun f =>
          (if (stateByte p f).bind procBucket = some k then 1 else 0) +
          (if k = "total" ∧ (recordStats p f).isSome = true then 1 else 0) +
          (if k = "total_threads" then (threadField p f).getD 0 else 0))).sum := by
  induction files with
  | nil =>
    intro incs h
    simp only [allIncrs, Option.some.injEq] at h
    rw [← h]
    rfl
  | cons f rest ih =>
    intro incs h
    unfold allIncrs at h
    cases ha : procIncrs p f with
    | none => rw [ha] at h; cases h
    | some a =>
      cases hb : allIncrs p rest with
      | none => rw [ha, hb] at h; cases h
      | some b =>
        rw [ha, hb] at h
        simp only [Option.some.injEq] at h
        rw [← h, sumFor_append, procIncrs_sumFor ha k, ih b hb, List.map_cons, List.sum_cons]

/-! ## C13: what `total` counts in the pseudo-file parser -/

theorem lastIndex_isSome_iff (data : Bytes) (c : UInt8) :
    (lastIndex data c).isSome = true ↔ c ∈ data := by
  constructor
  · intro h
    by_contra hc
    rw [lastIndex_eq_none hc] at h
    cases h
  · intro h
    induction data with
    | nil => cases h
    | cons b rest ih =>
      rw [lastIndex]
      cases hl : lastIndex rest c with
      | some i => rfl
      | none =>
        simp only
        rcases List.mem_cons.mp h with hb | hr
        · rw [if_pos hb.symm]; rfl
        · have := ih hr
          rw [hl] at this
          cases this

theorem hasRecord_eq (p : Processes) (filename : String) :
    hasRecord p filename = (recordStats p filename).isSome := by
  unfold hasRecord recordStats
  rcases p.readProcFile filename with ⟨_ | data, _ | err⟩
  · rfl
  · rfl
  · simp only [Option.isSome_map']
    by_cases h : ')'.toUInt8 ∈ data
    · rw [(lastIndex_isSome_iff data _).mpr h]
      exact decide_eq_true h
    · rw [lastIndex_eq_none h]
      exact decide_eq_false h
  · rfl

theorem sum_indicator (files : List String) (P : String → Bool) :
    (files.map (fun f => if P f = true then (1 : Int) else 0)).sum =
      ((files.countP P : Nat) : Int) := by
  induction files with
  | nil => rfl
  | cons f rest ih =>
    rw [List.map_cons, List.sum_cons, ih, List.countP_cons]
    by_cases h : P f = true
    · simp [h]; ring
    · simp [h]

/-- The entry of each key after a census that completed from the zero table:
a key of the platform holds the `int64` sum of what the files add to it, a key
the platform lacks stays absent and no file adds to it. -/
theorem procLoop_zero_apply {goos : String} {p : Processes} {files : List String}
    {result : Fields} (hrun : procLoop p files (getEmptyFields goos) = .done result)
    (k : String) :
    (getEmptyFields goos k = some 0 ∧
      result k = some (wrapInt64 (files.map (fileAdds p k)).sum)) ∨
    (getEmptyFields goos k = none ∧ result k = none ∧ (files.map (fileAdds p k)).sum = 0) := by
  obtain ⟨incs, hincs, hall⟩ := (procLoop_done_iff p files _ result).mp hrun
  have hsum : sumFor k incs = (files.map (fileAdds p k)).sum :=
    allIncrs_sumFor p k files incs hincs
  rcases getEmptyFields_zero_or_none goos k with h0 | h0
  · left
    refine ⟨h0, ?_⟩
    obtain ⟨_, hres⟩ := (Fields.incrAll_ok_iff incs _ result).mp hall
    rw [hres, Fields.addAll_apply_some incs _ k 0 h0 (by norm_num) (by norm_num), zero_add, hsum]
  · right
    obtain ⟨h1, h2⟩ := sumFor_of_none hall h0
    exact ⟨h0, h2, by rw [← hsum]; exact h1⟩

theorem fileAdds_total (p : Processes) (filename : String) :
    fileAdds p "total" filename = if hasRecord p filename = true then 1 else 0 := by
  unfold fileAdds
  have hb : ¬ (stateByte p filename).bind procBucket = some "total" := by
    intro h
    cases hs : stateByte p filename with
    | none => rw [hs] at h; cases h
    | some c => rw [hs] at h; exact (procBucket_linux h).2.1 rfl
  rw [if_neg hb, hasRecord_eq]
  simp

/-- C13, as amended. After a census of the pseudo-file parser that completes
without error from the zero table, on fewer than `2^63` files, `total` is the
number of enumerated files whose read succeeded with data that contains a `)`,
whatever their state codes are. -/
theorem gatherFromProc_total (goos : String) (p : Processes) (files : List String)
    (result : Fields) (hlen : files.length < 2 ^ 63)
    (hrun : gatherFromProc (hostWith goos files) p (getEmptyFields goos) = .done result) :
    result "total" = some ((files.countP (hasRecord p) : Nat) : Int) := by
  have hsum : (files.map (fileAdds p "total")).sum = ((files.countP (hasRecord p) : Nat) : Int) := by
    rw [← sum_indicator]
    congr 1
    exact List.map_congr_left (fun f _ => fileAdds_total p f)
  rcases procLoop_zero_apply hrun "total" with ⟨_, h⟩ | ⟨h0, _, _⟩
  · rw [h, hsum]
    have hle : files.countP (hasRecord p) ≤ files.length := List.countP_le_length _
    have h1 : ((files.countP (hasRecord p) : Nat) : Int) < 2 ^ 63 := by
      have : files.countP (hasRecord p) < 2 ^ 63 := by omega
      exact_mod_cast this
    have h2 : -2 ^ 63 ≤ ((files.countP (hasRecord p) : Nat) : Int) := by
      have : (0 : Int) ≤ ((files.countP (hasRecord p) : Nat) : Int) := Int.ofNat_nonneg _
      norm_num
      omega
    rw [wrapInt64_of_range h2 h1]
  · rw [getEmptyFields_total] at h0
    cases h0

theorem gatherFromProc_total_witness :
    ∃ result, gatherFromProc (hostWith "linux" ["/proc/1/stat", "/proc/2/stat", "/proc/3/stat"])
        (procReads [("/proc/1/stat", (some (bytesOf "1 kthreadd S\n"), none)),
          ("/proc/2/stat", (some sampleRecord, none))]) (getEmptyFields "linux") =
        .done result ∧
      result "total" = some 1 ∧
      result "total" = some (((["/proc/1/stat", "/proc/2/stat", "/proc/3/stat"].countP
        (hasRecord (procReads [("/proc/1/stat", (some (bytesOf "1 kthreadd S\n"), none)),
          ("/proc/2/stat", (some sampleRecord, none))]))) : Nat) : Int) :=
  ⟨_, rfl, by decide,
    gatherFromProc_total "linux" _ ["/proc/1/stat", "/proc/2/stat", "/proc/3/stat"] _
      (by decide) rfl⟩

/-- C13, as stated, fails. The one enumerated file is read with data
`1 kthreadd S` that contains no `)`: the census completes, one file was read
with data, and `total` is 0. -/
theorem gatherFromProc_total_counterexample :
    ∃ result, gatherFromProc (hostWith "linux" ["/proc/1/stat"])
        (procReads [("/proc/1/stat", (some (bytesOf "1 kthreadd S\n"), none))])
        (getEmptyFields "linux") = .done result ∧
      ["/proc/1/stat"].countP
        (readsData (procReads [("/proc/1/stat", (some (bytesOf "1 kthreadd S\n"), none))])) = 1 ∧
      result "total" = some 0 ∧
      result "total" ≠ some ((["/proc/1/stat"].countP
        (readsData (procReads [("/proc/1/stat", (some (bytesOf "1 kthreadd S\n"), none))]))
          : Nat) : Int) :=
  ⟨_, rfl, by decide, by decide, by decide⟩

/-! ## C12: whether counts only grow -/

theorem Outcome.ofExcept_ne_failed (x : Except Panic Fields) (f : Fields) (e : GoError) :
    Outcome.ofExcept x ≠ .failed f e := by
  cases x <;> intro h <;> cases h

theorem procBody_failed {p : Processes} {filename : String} {fields f1 : Fields} {e : GoError}
    (h : procBody p filename fields = .failed f1 e) : f1 = fields := by
  have hstats : ∀ stats, procStats stats fields ≠ .failed f1 e := by
    intro stats hs
    unfold procStats at hs
    split at hs
    · cases hs
    · cases hs
    · split at hs
      · cases hs
      · split at hs
        · cases hs
        · split at hs
          · cases hs
          · split at hs
            · cases hs
            · exact absurd hs (Outcome.ofExcept_ne_failed _ _ _)
  unfold procBody at h
  rcases hr : p.readProcFile filename with ⟨_ | data, _ | err⟩
  · rw [hr] at h; cases h
  · rw [hr] at h; cases h; rfl
  · rw [hr] at h
    simp only at h
    unfold procRecord at h
    cases hi : lastIndex data ')'.toUInt8 with
    | none => rw [hi] at h; cases h
    | some i =>
      rw [hi] at h
      simp only at h
      split_ifs at h
      · cases h; rfl
      · exact absurd h (hstats _)
  · rw [hr] at h; cases h; rfl

/-- A loop that returns has run to the end of a front part of the enumeration. -/
theorem procLoop_leaves (p : Processes) (files : List String) :
    ∀ fields f1 : Fields, (procLoop p files fields).leaves f1 →
      ∃ pre post, files = pre ++ post ∧ procLoop p pre fields = .done f1 := by
  induction files with
  | nil =>
    intro fields f1 h
    rcases h with h | ⟨e, h⟩
    · exact ⟨[], [], rfl, h⟩
    · cases h
  | cons f rest ih =>
    intro fields f1 h
    unfold Outcome.leaves at h
    rw [procLoop] at h
    cases hb : procBody p f fields with
    | done f2 =>
      rw [hb] at h
      obtain ⟨pre, post, hsplit, hpre⟩ := ih f2 f1 h
      refine ⟨f :: pre, post, by rw [hsplit]; rfl, ?_⟩
      rw [procLoop, hb]
      exact hpre
    | failed f2 e =>
      rw [hb] at h
      have h2 : f2 = fields := procBody_failed hb
      rcases h with h | ⟨e2, h⟩
      · cases h
      · cases h
        exact ⟨[], f :: rest, rfl, by rw [h2]; rfl⟩
    | panicked pn =>
      rw [hb] at h
      rcases h with h | ⟨e2, h⟩ <;> cases h

theorem fileAdds_bounds (p : Processes) (k : String) (filename : String)
    (hk : k ≠ "total_threads") :
    0 ≤ fileAdds p k filename ∧ fileAdds p k filename ≤ 1 := by
  unfold fileAdds
  rw [if_neg hk, add_zero]
  by_cases hb : (stateByte p filename).bind procBucket = some k
  · have hkt : k ≠ "total" := by
      intro hkt
      cases hs : stateByte p filename with
      | none => rw [hs] at hb; cases hb
      | some c =>
        rw [hs, hkt] at hb
        exact (procBucket_linux hb).2.1 rfl
    rw [if_pos hb, if_neg (fun h => hkt h.1)]
    norm_num
  · rw [if_neg hb]
    split_ifs <;> norm_num

theorem fileAdds_threads (p : Processes) (filename : String) :
    fileAdds p "total_threads" filename = (threadField p filename).getD 0 := by
  unfold fileAdds
  have hb : ¬ (stateByte p filename).bind procBucket = some "total_threads" := by
    intro h
    cases hs : stateByte p filename with
    | none => rw [hs] at h; cases h
    | some c => rw [hs] at h; exact (procBucket_linux h).2.2 rfl
  rw [if_neg hb]
  simp

theorem sum_unit_bounds (files : List String) (g : String → Int)
    (hg : ∀ f ∈ files, 0 ≤ g f ∧ g f ≤ 1) :
    0 ≤ (files.map g).sum ∧ (files.map g).sum ≤ files.length := by
  induction files with
  | nil => simp
  | cons f rest ih =>
    have h1 := hg f (List.mem_cons_self _ _)
    have h2 := ih (fun g2 hg2 => hg g2 (List.mem_cons_of_mem _ hg2))
    simp only [List.map_cons, List.sum_cons, List.length_cons, Nat.cast_add, Nat.cast_one]
    omega

theorem sum_nonneg_front (pre post : List String) (g : String → Int)
    (hg : ∀ f ∈ pre ++ post, 0 ≤ g f) :
    0 ≤ (pre.map g).sum ∧ (pre.map g).sum ≤ ((pre ++ post).map g).sum := by
  have hnn : ∀ l : List String, (∀ f ∈ l, 0 ≤ g f) → 0 ≤ (l.map g).sum := by
    intro l hl
    induction l with
    | nil => simp
    | cons f rest ih =>
      have h1 := hl f (List.mem_cons_self _ _)
      have h2 := ih (fun g2 hg2 => hl g2 (List.mem_cons_of_mem _ hg2))
      simp only [List.map_cons, List.sum_cons]
      omega
  have h1 := hnn pre (fun f hf => hg f (List.mem_append_left _ hf))
  have h2 := hnn post (fun f hf => hg f (List.mem_append_right _ hf))
  rw [List.map_append, List.sum_append]
  omega

theorem gatherFromPS_failed {p : Processes} {fields f1 : Fields} {e : GoError}
    (h : gatherFromPS p fields = .failed f1 e) : f1 = fields := by
  unfold gatherFromPS at h
  rcases hp : p.execPS with ⟨out, _ | err⟩
  · rw [hp] at h
    exact absurd h (Outcome.ofExcept_ne_failed _ _ _)
  · rw [hp] at h
    cases h
    rfl

/-- C12, as amended. Let a parser return, with or without an error, from the
zero table of the platform, on fewer than `2^63` bytes of output or enumerated
files. After `gatherFromPS` every count is at least the zero it started from.
After `gatherFromProc` so is every count other than `total_threads`; after a
completed run `total_threads` is the `int64` sum of the thread counts
`strconv.Atoi` accepted, and it is non-negative when each accepted thread
count is non-negative and their sum is below `2^63`. -/
theorem parsers_increment (goos : String) (p : Processes) (files : List String)
    (result : Fields) :
    (p.execPS.1.length < 2 ^ 63 → (gatherFromPS p (getEmptyFields goos)).leaves result →
      ∀ k v, result k = some v → getEmptyFields goos k = some 0 ∧ 0 ≤ v) ∧
    (files.length < 2 ^ 63 →
      (gatherFromProc (hostWith goos files) p (getEmptyFields goos)).leaves result →
      (∀ k v, k ≠ "total_threads" → result k = some v →
        getEmptyFields goos k = some 0 ∧ 0 ≤ v) ∧
      (∀ v, result "total_threads" = some v →
        (∀ f ∈ files, 0 ≤ (threadField p f).getD 0) →
        (files.map (fun f => (threadField p f).getD 0)).sum < 2 ^ 63 → 0 ≤ v)) ∧
    (gatherFromProc (hostWith goos files) p (getEmptyFields goos) = .done result →
      ∀ v, result "total_threads" = some v →
        v = wrapInt64 (files.map (fun f => (threadField p f).getD 0)).sum) := by
  refine ⟨?_, ?_, ?_⟩
  · intro hlen hleaves k v hv
    rcases hleaves with hdone | ⟨e, hfail⟩
    · obtain ⟨_, hsome, hnone⟩ := psLoop_hits k _ 0 _ _ (gatherFromPS_done hdone)
      rcases getEmptyFields_zero_or_none goos k with h0 | h0
      · refine ⟨h0, ?_⟩
        have hb : ((0 : Nat) : Int) + (countedTokens (bytesFields p.execPS.1)).length <
            2 ^ 63 := by
          have h1 := countedTokens_length_le (bytesFields p.execPS.1)
          have h2 := bytesFields_length_le p.execPS.1
          have h3 : (countedTokens (bytesFields p.execPS.1)).length < 2 ^ 63 := by omega
          have h4 : (((countedTokens (bytesFields p.execPS.1)).length : Nat) : Int) <
              2 ^ 63 := by
            exact_mod_cast h3
          simpa using h4
        have := hsome 0 (by simpa using h0) hb
        rw [this] at hv
        cases hv
        exact Int.ofNat_nonneg _
      · rw [(hnone h0).1] at hv
        cases hv
    · rw [gatherFromPS_failed hfail] at hv
      rcases getEmptyFields_zero_or_none goos k with h0 | h0
      · rw [h0] at hv
        cases hv
        exact ⟨h0, le_refl _⟩
      · rw [h0] at hv
        cases hv
  · intro hlen hleaves
    obtain ⟨pre, post, hsplit, hpre⟩ := procLoop_leaves p files _ result hleaves
    have hprelen : pre.length ≤ files.length := by
      rw [hsplit, List.length_append]
      omega
    refine ⟨?_, ?_⟩
    · intro k v hk hv
      rcases procLoop_zero_apply hpre k with ⟨h0, hres⟩ | ⟨_, hres, _⟩
      · refine ⟨h0, ?_⟩
        obtain ⟨hs0, hs1⟩ := sum_unit_bounds pre (fileAdds p k)
          (fun f _ => fileAdds_bounds p k f hk)
        have hlt : (pre.map (fileAdds p k)).sum < 2 ^ 63 := by
          have h3 : ((pre.length : Nat) : Int) < 2 ^ 63 := by
            have : pre.length < 2 ^ 63 := by omega
            exact_mod_cast this
          omega
        have hge : -2 ^ 63 ≤ (pre.map (fileAdds p k)).sum := by
          norm_num
          omega
        rw [hres, wrapInt64_of_range hge hlt] at hv
        cases hv
        exact hs0
      · rw [hres] at hv
        cases hv
    · intro v hv hnn hsum
      rcases procLoop_zero_apply hpre "total_threads" with ⟨_, hres⟩ | ⟨_, hres, _⟩
      · have hfun : pre.map (fileAdds p "total_threads") =
            pre.map (fun f => (threadField p f).getD 0) :=
          List.map_congr_left (fun f _ => fileAdds_threads p f)
        rw [hsplit] at hnn hsum
        obtain ⟨hs0, hs1⟩ := sum_nonneg_front pre post (fun f => (threadField p f).getD 0) hnn
        have hge : -2 ^ 63 ≤ (pre.map (fun f => (threadField p f).getD 0)).sum := by
          norm_num
          omega
        rw [hres, hfun, wrapInt64_of_range hge (by omega)] at hv
        cases hv
        exact hs0
      · rw [hres] at hv
        cases hv
  · intro hdone v hv
    rcases procLoop_zero_apply hdone "total_threads" with ⟨_, hres⟩ | ⟨_, hres, _⟩
    · have hfun : files.map (fileAdds p "total_threads") =
          files.map (fun f => (threadField p f).getD 0) :=
        List.map_congr_left (fun f _ => fileAdds_threads p f)
      rw [hres, hfun] at hv
      cases hv
      rfl
    · rw [hres] at hv
      cases hv

theorem parsers_increment_witness :
    ∃ result, gatherFromProc (hostWith "linux" ["/proc/123/stat", "/proc/124/stat"])
        (procReads [("/proc/123/stat", (some sampleRecord, none)),
          ("/proc/124/stat", (some badThreadsRecord, none))]) (getEmptyFields "linux") =
        .done result ∧
      result "sleeping" = some 2 ∧ result "total_threads" = some 4 ∧
      (getEmptyFields "linux" "sleeping" = some 0 ∧ (0 : Int) ≤ 2) ∧ (0 : Int) ≤ 4 :=
  ⟨_, rfl, by decide, by decide,
    ((parsers_increment "linux"
      (procReads [("/proc/123/stat", (some sampleRecord, none)),
          ("/proc/124/stat", (some badThreadsRecord, none))])
      ["/proc/123/stat", "/proc/124/stat"] _).2.1 (by decide) (Or.inl rfl)).1
        "sleeping" 2 (by decide) (by decide),
    ((parsers_increment "linux"
      (procReads [("/proc/123/stat", (some sampleRecord, none)),
          ("/proc/124/stat", (some badThreadsRecord, none))])
      ["/proc/123/stat", "/proc/124/stat"] _).2.1 (by decide) (Or.inl rfl)).2
        4 (by decide) (by decide) (by decide)⟩

/-- C12, as stated, fails. The thread-count field `-5` is accepted by
`strconv.Atoi`; the census completes and the record `Collect` returns has
`total_threads` at `-5`, below the zero it started from. -/
theorem Collect_negative_threads :
    ∃ record, Collect (hostWith "linux" ["/proc/123/stat"])
        (procReads [("/proc/123/stat", (some negativeThreadsRecord, none))]) =
        .returned [record] none ∧
      getEmptyFields "linux" "total_threads" = some 0 ∧
      record "total_threads" = some (-5) ∧
      atoi (bytesOf "-5") = some (-5) :=
  ⟨_, rfl, by decide, by decide, by decide⟩

/-! ## C18: the state buckets against `total` -/

theorem stateKeys_nodup (goos : String) : (stateKeys goos).Nodup := by
  unfold stateKeys platformBuckets universalBuckets
  split_ifs <;> decide

theorem mem_stateKeys (goos k : String) :
    k ∈ stateKeys goos ↔
      (getEmptyFields goos k).isSome = true ∧ k ≠ "total" ∧ k ≠ "total_threads" := by
  unfold stateKeys
  rw [List.mem_filter, getEmptyFields_isSome_iff]
  simp

/-- Over a list without duplicates, the indicators of `b = some k` add up to
one when `b` names a member and to zero otherwise. -/
theorem sum_indicator_keys (keys : List String) (hnd : keys.Nodup) (b : Option String) :
    (keys.map (fun k => if b = some k then (1 : Int) else 0)).sum =
      if (∃ k ∈ keys, b = some k) then 1 else 0 := by
  induction keys with
  | nil => simp
  | cons k rest ih =>
    obtain ⟨hk, hrest⟩ := List.nodup_cons.mp hnd
    rw [List.map_cons, List.sum_cons, ih hrest]
    by_cases hb : b = some k
    · have hno : ¬ ∃ k2 ∈ rest, b = some k2 := by
        rintro ⟨k2, hk2, hb2⟩
        rw [hb] at hb2
        exact hk (by rw [Option.some.inj hb2]; exact hk2)
      have hyes : ∃ k2 ∈ k :: rest, b = some k2 := ⟨k, List.mem_cons_self _ _, hb⟩
      rw [if_pos hb, if_neg hno, if_pos hyes]
      rfl
    · rw [if_neg hb, zero_add]
      by_cases hr : ∃ k2 ∈ rest, b = some k2
      · obtain ⟨k2, hk2, hb2⟩ := hr
        rw [if_pos ⟨k2, hk2, hb2⟩, if_pos ⟨k2, List.mem_cons_of_mem _ hk2, hb2⟩]
      · have hno : ¬ ∃ k2 ∈ k :: rest, b = some k2 := by
          rintro ⟨k2, hk2, hb2⟩
          rcases List.mem_cons.mp hk2 with h | h
          · exact hb (by rw [hb2, h])
          · exact hr ⟨k2, h, hb2⟩
        rw [if_neg hr, if_neg hno]

/-- Counting, key by key, the items that select the key counts the items
that select some key of the list. -/
theorem sum_count_keys {α : Type} (keys : List String) (hnd : keys.Nodup)
    (bucket : α → Option String) (items : List α) :
    (keys.map (fun k => ((items.countP (fun x => decide (bucket x = some k)) : Nat) : Int))).sum =
      ((items.countP (fun x => decide (∃ k ∈ keys, bucket x = some k)) : Nat) : Int) := by
  induction items with
  | nil => simp
  | cons x rest ih =>
    have hstep : ∀ k, ((List.countP (fun x => decide (bucket x = some k)) (x :: rest) : Nat) : Int) =
        ((rest.countP (fun x => decide (bucket x = some k)) : Nat) : Int) +
          (if bucket x = some k then (1 : Int) else 0) := by
      intro k
      rw [List.countP_cons]
      by_cases h : bucket x = some k
      · simp [h]
      · simp [h]
    simp only [hstep]
    rw [List.sum_map_add, ih, sum_indicator_keys keys hnd (bucket x), List.countP_cons]
    by_cases h : ∃ k ∈ keys, bucket x = some k
    · simp [h]
    · simp [h]

/-- The sum of the state buckets, when each holds the number of items that
select it and every selected bucket is a state bucket of the platform. -/
theorem bucketSum_eq {α : Type} (goos : String) (result : Fields) (bucket : α → Option String)
    (items : List α)
    (hval : ∀ k ∈ stateKeys goos,
      result k = some ((items.countP (fun x => decide (bucket x = some k)) : Nat) : Int))
    (hin : ∀ x ∈ items, ∀ b, bucket x = some b → b ∈ stateKeys goos) :
    bucketSum goos result = ((items.countP (fun x => (bucket x).isSome) : Nat) : Int) := by
  unfold bucketSum
  have h1 : (stateKeys goos).map (fun k => (result k).getD 0) =
      (stateKeys goos).map (fun k =>
        ((items.countP (fun x => decide (bucket x = some k)) : Nat) : Int)) :=
    List.map_congr_left (fun k hk => by rw [hval k hk]; rfl)
  rw [h1, sum_count_keys (stateKeys goos) (stateKeys_nodup goos) bucket items]
  congr 1
  apply List.countP_congr
  intro x hx
  cases hb : bucket x with
  | none => simp
  | some b => simpa using hin x hx b hb

/-- Counting splits: when on every item the indicator of `A` is the sum of
those of `B` and `C`. -/
theorem countP_split {α : Type} (items : List α) (A B C : α → Bool)
    (h : ∀ x ∈ items, (A x = true ↔ (B x = true ∨ C x = true)) ∧ ¬ (B x = true ∧ C x = true)) :
    items.countP A = items.countP B + items.countP C := by
  induction items with
  | nil => rfl
  | cons x rest ih =>
    have hx := h x (List.mem_cons_self _ _)
    have hr := ih (fun y hy => h y (List.mem_cons_of_mem _ hy))
    rw [List.countP_cons, List.countP_cons, List.countP_cons, hr]
    cases hA : A x <;> cases hB : B x <;> cases hC : C x <;> simp_all <;> omega

theorem psBucket_eq_bucketOf (c : UInt8) : psBucket c = bucketOf psStateCodes c := by
  rcases psBucket_cases c with ⟨h, e⟩ | ⟨h, e⟩ | ⟨h, e⟩ | ⟨h, e⟩ | ⟨h, e⟩ | ⟨h, e⟩ |
    ⟨h, e⟩ | ⟨h, e⟩ | ⟨h, e⟩ | ⟨h, e⟩
  all_goals rw [e]
  all_goals simp only [bucketOf, psStateCodes, List.find?, List.map_cons, List.map_nil,
    List.mem_cons, List.mem_singleton, List.not_mem_nil, or_false, Char.reduceToNat]
  · simp [h]
  · rcases h with h | h | h <;> simp [h]
  · simp [h]
  · simp [h]
  · simp [h]
  · simp [h]
  · simp [h]
  · simp [h]
  · simp [h]
  · simp [h]

theorem psBucket_ne_threads (c : UInt8) : psBucket c ≠ some "total_threads" := by
  rcases psBucket_cases c with ⟨_, e⟩ | ⟨_, e⟩ | ⟨_, e⟩ | ⟨_, e⟩ | ⟨_, e⟩ | ⟨_, e⟩ | ⟨_, e⟩ |
    ⟨_, e⟩ | ⟨_, e⟩ | ⟨_, e⟩ <;> rw [e] <;> simp

theorem psHit_eq (k : String) (hk : k ≠ "total") (t : Bytes) :
    psHit k t = if tokenBucket t = some k then 1 else 0 := by
  unfold psHit tokenBucket
  cases t with
  | nil => simp
  | cons c cs => simp [hk]

theorem sum_psHit_eq (k : String) (hk : k ≠ "total") (tokens : List Bytes) :
    (tokens.map (psHit k)).sum = tokens.countP (fun t => decide (tokenBucket t = some k)) := by
  induction tokens with
  | nil => rfl
  | cons t rest ih =>
    rw [List.map_cons, List.sum_cons, ih, List.countP_cons, psHit_eq k hk]
    by_cases h : tokenBucket t = some k
    · simp [h]; omega
    · simp [h]

theorem sum_psHit_pos (k : String) (tokens : List Bytes) (t : Bytes) (ht : t ∈ tokens)
    (hhit : tokenBucket t = some k) : 0 < (tokens.map (psHit k)).sum := by
  induction tokens with
  | nil => cases ht
  | cons t1 rest ih =>
    rw [List.map_cons, List.sum_cons]
    rcases List.mem_cons.mp ht with h | h
    · subst h
      have : 1 ≤ psHit k t := by
        unfold psHit
        unfold tokenBucket at hhit
        cases t with
        | nil => cases hhit
        | cons c cs =>
          simp only at hhit ⊢
          rw [if_pos hhit]
          omega
      omega
    · have := ih h
      omega

/-- After a completed run of `gatherFromPS` from the zero table: `total` is
the number of counted tokens, the state buckets add up to the number of them
that select a bucket, and the two differ by the unrecognised ones. -/
theorem gatherFromPS_bucketSum {goos : String} {p : Processes} {result : Fields}
    (hlen : p.execPS.1.length < 2 ^ 63)
    (hrun : gatherFromPS p (getEmptyFields goos) = .done result) :
    ∃ total recognized : Nat, result "total" = some (total : Int) ∧
      bucketSum goos result = (recognized : Int) ∧
      total = recognized + unrecognizedTokens (bytesFields p.execPS.1) := by
  have hloop := gatherFromPS_done hrun
  have hbound : ∀ m : Nat, m = 0 →
      (m : Int) + (countedTokens (bytesFields p.execPS.1)).length < 2 ^ 63 := by
    intro m hm
    have h1 := countedTokens_length_le (bytesFields p.execPS.1)
    have h2 := bytesFields_length_le p.execPS.1
    have h3 : (countedTokens (bytesFields p.execPS.1)).length < 2 ^ 63 := by omega
    have h4 : (((countedTokens (bytesFields p.execPS.1)).length : Nat) : Int) < 2 ^ 63 := by
      exact_mod_cast h3
    rw [hm]
    simpa using h4
  obtain ⟨hne, htot, _⟩ := psLoop_hits "total" _ 0 _ _ hloop
  refine ⟨(countedTokens (bytesFields p.execPS.1)).length,
    (countedTokens (bytesFields p.execPS.1)).countP (fun t => (tokenBucket t).isSome), ?_, ?_, ?_⟩
  · have := htot 0 (by simpa using getEmptyFields_total goos) (hbound 0 rfl)
    rw [this, sum_psHit_total _ hne]
    simp
  · apply bucketSum_eq goos result tokenBucket
    · intro k hk
      obtain ⟨hsome, hk1, _⟩ := (mem_stateKeys goos k).mp hk
      obtain ⟨_, hval, _⟩ := psLoop_hits k _ 0 _ _ hloop
      rcases getEmptyFields_zero_or_none goos k with h0 | h0
      · have := hval 0 (by simpa using h0) (hbound 0 rfl)
        rw [this, sum_psHit_eq k hk1]
        simp
      · rw [h0] at hsome
        cases hsome
    · intro t ht b hb
      refine (mem_stateKeys goos b).mpr ⟨?_, ?_, ?_⟩
      · obtain ⟨_, _, hnone⟩ := psLoop_hits b _ 0 _ _ hloop
        rcases getEmptyFields_zero_or_none goos b with h0 | h0
        · rw [h0]; rfl
        · have hz := (hnone h0).2
          have hp := sum_psHit_pos b _ t ht hb
          omega
      · intro hbt
        unfold tokenBucket at hb
        cases t with
        | nil => cases hb
        | cons c cs => rw [hbt] at hb; exact psBucket_ne_total c hb
      · intro hbt
        unfold tokenBucket at hb
        cases t with
        | nil => cases hb
        | cons c cs => rw [hbt] at hb; exact psBucket_ne_threads c hb
  · unfold unrecognizedTokens
    have hsplit := countP_split (countedTokens (bytesFields p.execPS.1)) (fun _ => true)
      (fun t => (tokenBucket t).isSome)
      (fun t =>
        match t with
        | c :: _ => (bucketOf psStateCodes c).isNone
        | [] => false)
      (by
        intro t ht
        cases t with
        | nil => exact absurd rfl (hne [] ht)
        | cons c cs =>
          simp only [tokenBucket, psBucket_eq_bucketOf]
          cases bucketOf psStateCodes c <;> simp)
    rw [List.countP_true] at hsplit
    exact hsplit

theorem allIncrs_mem (p : Processes) (files : List String) :
    ∀ incs, allIncrs p files = some incs → ∀ f ∈ files, ∃ a, procIncrs p f = some a := by
  induction files with
  | nil => intro incs _ f hf; cases hf
  | cons g rest ih =>
    intro incs h f hf
    unfold allIncrs at h
    cases ha : procIncrs p g with
    | none => rw [ha] at h; cases h
    | some a =>
      cases hb : allIncrs p rest with
      | none => rw [ha, hb] at h; cases h
      | some b =>
        rcases List.mem_cons.mp hf with h1 | h1
        · rw [h1]; exact ⟨a, ha⟩
        · exact ih b hb f h1

theorem fileAdds_bucket (p : Processes) (k : String) (hk1 : k ≠ "total")
    (hk2 : k ≠ "total_threads") (filename : String) :
    fileAdds p k filename = if recordBucket p filename = some k then 1 else 0 := by
  simp only [fileAdds, recordBucket, hk1, hk2, false_and, if_false, add_zero]

theorem sum_pos_of_mem (files : List String) (g : String → Int)
    (hg : ∀ f ∈ files, 0 ≤ g f) (f : String) (hf : f ∈ files) (h1 : 1 ≤ g f) :
    1 ≤ (files.map g).sum := by
  induction files with
  | nil => cases hf
  | cons f1 rest ih =>
    rw [List.map_cons, List.sum_cons]
    have hg2 : ∀ f2 ∈ rest ++ [], 0 ≤ g f2 := by
      intro f2 hf2
      rw [List.append_nil] at hf2
      exact hg f2 (List.mem_cons_of_mem _ hf2)
    have hrest : 0 ≤ (rest.map g).sum := (sum_nonneg_front rest [] g hg2).1
    rcases List.mem_cons.mp hf with h | h
    · rw [← h]; omega
    · have := ih (fun f2 hf2 => hg f2 (List.mem_cons_of_mem _ hf2)) h
      have := hg f1 (List.mem_cons_self _ _)
      omega

theorem wrapInt64_countP {α : Type} (items : List α) (P : α → Bool) (n : Nat)
    (hle : items.length ≤ n) (hn : n < 2 ^ 63) :
    wrapInt64 ((items.countP P : Nat) : Int) = ((items.countP P : Nat) : Int) := by
  have hle2 : items.countP P ≤ items.length := List.countP_le_length _
  have h1 : ((items.countP P : Nat) : Int) < 2 ^ 63 := by
    have : items.countP P < 2 ^ 63 := by omega
    exact_mod_cast this
  have h2 : -2 ^ 63 ≤ ((items.countP P : Nat) : Int) := by
    have : (0 : Int) ≤ ((items.countP P : Nat) : Int) := Int.ofNat_nonneg _
    norm_num
    omega
  exact wrapInt64_of_range h2 h1

/-- After a completed run of the loop of `gatherFromProc` from the zero table:
`total` is the number of files with a record, the state buckets add up to the
number of them whose state code selects a bucket, and the two differ by the
unrecognised ones. -/
theorem procLoop_bucketSum {goos : String} {p : Processes} {files : List String}
    {result : Fields} (hlen : files.length < 2 ^ 63)
    (hrun : procLoop p files (getEmptyFields goos) = .done result) :
    ∃ total recognized : Nat, result "total" = some (total : Int) ∧
      bucketSum goos result = (recognized : Int) ∧
      total = recognized + unrecognizedRecords p files := by
  refine ⟨files.countP (hasRecord p), files.countP (fun f => (recordBucket p f).isSome),
    ?_, ?_, ?_⟩
  · have hsum : (files.map (fileAdds p "total")).sum =
        ((files.countP (hasRecord p) : Nat) : Int) := by
      rw [← sum_indicator]
      congr 1
      exact List.map_congr_left (fun f _ => fileAdds_total p f)
    rcases procLoop_zero_apply hrun "total" with ⟨_, h⟩ | ⟨h0, _, _⟩
    · rw [h, hsum, wrapInt64_countP files _ files.length (le_refl _) hlen]
    · rw [getEmptyFields_total] at h0
      cases h0
  · apply bucketSum_eq goos result (recordBucket p)
    · intro k hk
      obtain ⟨hsome, hk1, hk2⟩ := (mem_stateKeys goos k).mp hk
      have hsum : (files.map (fileAdds p k)).sum =
          ((files.countP (fun f => decide (recordBucket p f = some k)) : Nat) : Int) := by
        rw [← sum_indicator]
        congr 1
        apply List.map_congr_left
        intro f _
        rw [fileAdds_bucket p k hk1 hk2]
        simp
      rcases procLoop_zero_apply hrun k with ⟨_, h⟩ | ⟨h0, _, _⟩
      · rw [h, hsum, wrapInt64_countP files _ files.length (le_refl _) hlen]
      · rw [h0] at hsome
        cases hsome
    · intro f hf b hb
      have hb2 : b ≠ "total" ∧ b ≠ "total_threads" := by
        unfold recordBucket at hb
        cases hs : stateByte p f with
        | none => rw [hs] at hb; cases hb
        | some c => rw [hs] at hb; exact (procBucket_linux hb).2
      refine (mem_stateKeys goos b).mpr ⟨?_, hb2.1, hb2.2⟩
      rcases procLoop_zero_apply hrun b with ⟨h0, _⟩ | ⟨_, _, hz⟩
      · rw [h0]; rfl
      · have hpos := sum_pos_of_mem files (fileAdds p b)
          (fun f2 _ => (fileAdds_bounds p b f2 hb2.2).1) f hf
          (by rw [fileAdds_bucket p b hb2.1 hb2.2, if_pos hb])
        omega
  · obtain ⟨incs, hincs, _⟩ := (procLoop_done_iff p files _ result).mp hrun
    unfold unrecognizedRecords
    apply countP_split
    intro f hf
    obtain ⟨a, ha⟩ := allIncrs_mem p files incs hincs f hf
    rw [hasRecord_eq]
    rcases procIncrs_cases ha with ⟨hr, _⟩ | ⟨c, cs, rest, s, hr, _, _⟩
    · simp [recordBucket, stateByte, hr]
    · have hs : stateByte p f = some c := by simp [stateByte, hr]
      simp only [recordBucket, hs, hr, Option.some_bind, ← procBucket_eq_bucketOf]
      cases procBucket c <;> simp

theorem total_minus_sum {total recognized unrecognized : Nat} {s : Int}
    (hs : s = (recognized : Int)) (h : total = recognized + unrecognized) :
    s ≤ (total : Int) ∧ (total : Int) - s = (unrecognized : Int) ∧
      (s = (total : Int) ↔ unrecognized = 0) := by
  subst hs
  subst h
  push_cast
  refine ⟨by omega, by omega, ?_⟩
  constructor <;> intro h <;> omega

/-- C18. After a run of either parser that completes without error from the
zero table of the platform (on fewer than `2^63` bytes of output, or files),
the sum of all state buckets, that is of every key of the table except `total`
and `total_threads`, is at most `total`; `total` minus that sum is the number
of counted tokens, or of records, whose state code the specification's mapping
gives no bucket; and the sum equals `total` exactly when there is none. -/
theorem buckets_against_total (goos : String) (p : Processes) (files : List String)
    (result : Fields) :
    (p.execPS.1.length < 2 ^ 63 → gatherFromPS p (getEmptyFields goos) = .done result →
      ∃ total : Int, result "total" = some total ∧ bucketSum goos result ≤ total ∧
        total - bucketSum goos result = (unrecognizedTokens (bytesFields p.execPS.1) : Int) ∧
        (bucketSum goos result = total ↔ unrecognizedTokens (bytesFields p.execPS.1) = 0)) ∧
    (files.length < 2 ^ 63 →
      gatherFromProc (hostWith goos files) p (getEmptyFields goos) = .done result →
      ∃ total : Int, result "total" = some total ∧ bucketSum goos result ≤ total ∧
        total - bucketSum goos result = (unrecognizedRecords p files : Int) ∧
        (bucketSum goos result = total ↔ unrecognizedRecords p files = 0)) := by
  constructor
  · intro hlen hrun
    obtain ⟨total, recognized, ht, hs, hsplit⟩ := gatherFromPS_bucketSum hlen hrun
    exact ⟨total, ht, total_minus_sum hs hsplit⟩
  · intro hlen hrun
    obtain ⟨total, recognized, ht, hs, hsplit⟩ := procLoop_bucketSum hlen hrun
    exact ⟨total, ht, total_minus_sum hs hsplit⟩

theorem buckets_against_total_witness :
    (∃ result, gatherFromPS (psPrints "STAT R S Z Q") (getEmptyFields "darwin") = .done result ∧
      result "total" = some 4 ∧ bucketSum "darwin" result = 3 ∧
      unrecognizedTokens (bytesFields (psPrints "STAT R S Z Q").execPS.1) = 1 ∧
      ∃ total : Int, result "total" = some total ∧ bucketSum "darwin" result ≤ total ∧
        total - bucketSum "darwin" result =
          (unrecognizedTokens (bytesFields (psPrints "STAT R S Z Q").execPS.1) : Int) ∧
        (bucketSum "darwin" result = total ↔
          unrecognizedTokens (bytesFields (psPrints "STAT R S Z Q").execPS.1) = 0)) ∧
    (∃ result, gatherFromProc (hostWith "linux" ["/proc/1/stat", "/proc/123/stat"])
        (procReads [("/proc/1/stat",
            (some (bytesOf "1 (init) I 1 2 3 4 5 6 7 8 9 10 11 12 13 14 15 16 1 18\n"), none)),
          ("/proc/123/stat", (some sampleRecord, none))]) (getEmptyFields "linux") =
        .done result ∧
      result "total" = some 2 ∧ bucketSum "linux" result = 1 ∧
      ∃ total : Int, result "total" = some total ∧ bucketSum "linux" result ≤ total ∧
        total - bucketSum "linux" result =
          (unrecognizedRecords (procReads [("/proc/1/stat",
            (some (bytesOf "1 (init) I 1 2 3 4 5 6 7 8 9 10 11 12 13 14 15 16 1 18\n"), none)),
          ("/proc/123/stat", (some sampleRecord, none))])
            ["/proc/1/stat", "/proc/123/stat"] : Int) ∧
        (bucketSum "linux" result = total ↔
          unrecognizedRecords (procReads [("/proc/1/stat",
            (some (bytesOf "1 (init) I 1 2 3 4 5 6 7 8 9 10 11 12 13 14 15 16 1 18\n"), none)),
          ("/proc/123/stat", (some sampleRecord, none))])
            ["/proc/1/stat", "/proc/123/stat"] = 0)) :=
  ⟨⟨_, rfl, by decide, by decide, by decide,
    (buckets_against_total "darwin" (psPrints "STAT R S Z Q") [] _).1 (by decide) rfl⟩,
   ⟨_, rfl, by decide, by decide,
    (buckets_against_total "linux" _ ["/proc/1/stat", "/proc/123/stat"] _).2 (by decide) rfl⟩⟩

/-! ## C16: no state between calls -/

theorem deref_newFields (s : Store) (goos : String) :
    (s.newFields goos).2.deref (s.newFields goos).1 = getEmptyFields goos := by
  simp [Store.deref, Store.newFields]

theorem afterParser_outcome (s : Store) (fields : Nat) (hf : fields < s.maps.length)
    (o : Outcome) : (s.afterParser fields o).outcome = Collected.ofOutcome o := by
  cases o with
  | done table => simp [Store.afterParser, Run.outcome, Collected.ofOutcome, Store.deref, hf]
  | failed table err => simp [Store.afterParser, Run.outcome, Collected.ofOutcome]
  | panicked pn => rfl

/-- What the caller sees of a call is `Collect` of the collector, whatever
maps the memory held before the call. -/
theorem storeCollect_outcome (h : Host) (s : Store) :
    (Store.Collect h s).outcome = Collect h s.collector := by
  have hlen : (s.newFields h.goos).1 < (s.newFields h.goos).2.maps.length := by
    simp [Store.newFields]
  have hcol : (s.newFields h.goos).2.collector = s.collector := rfl
  unfold Store.Collect Collect
  simp only
  rw [deref_newFields, hcol]
  by_cases hu : usePS h s.collector = true
  · rw [if_pos hu, if_pos hu]
    exact afterParser_outcome _ _ hlen _
  · rw [if_neg hu, if_neg hu]
    exact afterParser_outcome _ _ hlen _

theorem afterParser_returned {s : Store} {fields : Nat} {o : Outcome}
    {datas : List Nat} {err : Option GoError} {after : Store}
    (h : s.afterParser fields o = .returned datas err after) :
    after.collector = s.collector ∧ after.maps.length = s.maps.length ∧
      (∀ i, i ≠ fields → after.deref i = s.deref i) ∧ (∀ r ∈ datas, r = fields) := by
  cases o with
  | done table =>
    simp only [Store.afterParser, Run.returned.injEq] at h
    obtain ⟨hd, _, ha⟩ := h
    subst ha
    subst hd
    refine ⟨rfl, by simp, ?_, by simp⟩
    intro i hi
    simp [Store.deref, List.getElem?_set_ne (Ne.symm hi)]
  | failed table e =>
    simp only [Store.afterParser, Run.returned.injEq] at h
    obtain ⟨hd, _, ha⟩ := h
    subst ha
    subst hd
    refine ⟨rfl, by simp, ?_, by simp⟩
    intro i hi
    simp [Store.deref, List.getElem?_set_ne (Ne.symm hi)]
  | panicked pn => cases h

/-- A call that returns leaves the struct of the collector and every map that
was there as they were; its record, if any, is the one map it has made. -/
theorem storeCollect_returned {h : Host} {s : Store} {datas : List Nat}
    {err : Option GoError} {after : Store} (hc : Store.Collect h s = .returned datas err after) :
    after.collector = s.collector ∧ after.maps.length = s.maps.length + 1 ∧
      (∀ i, i < s.maps.length → after.deref i = s.deref i) ∧
      (∀ r ∈ datas, r = s.maps.length) := by
  have hold : ∀ i, i < s.maps.length → (s.newFields h.goos).2.deref i = s.deref i := by
    intro i hi
    simp [Store.deref, Store.newFields, List.getElem?_append_left hi]
  have hlen : (s.newFields h.goos).2.maps.length = s.maps.length + 1 := by
    simp [Store.newFields]
  unfold Store.Collect at hc
  simp only at hc
  split_ifs at hc
  all_goals
    obtain ⟨h1, h2, h3, h4⟩ := afterParser_returned hc
    refine ⟨h1, by rw [h2, hlen], ?_, h4⟩
    intro i hi
    rw [h3 i (by simp only [Store.newFields]; omega), hold i hi]

/-- C16. Let `Collect` be called in any memory, also one that holds the tables
of earlier calls. What its caller sees is `Collect` of the collector alone. If
the call returns, it has left the struct of the collector as it was, and a
second call in the memory it has left, on the same platform and with the same
enumeration, ends the same way for its caller: equal records, equal errors, or
the same panic. The record of the second call is a map of its own: the record
of the first call is not touched by the second call and is not the record of
the second, so no count of one call reaches the other. -/
theorem Collect_stateless (h1 h2 : Host) (s : Store) (hgoos : h2.goos = h1.goos)
    (hglob : h2.glob = h1.glob) :
    (Store.Collect h1 s).outcome = Collect h1 s.collector ∧
    ∀ datas err after, Store.Collect h1 s = .returned datas err after →
      after.collector = s.collector ∧
      collectTwice h1 h2 s = (.returned datas err after, some (Store.Collect h2 after)) ∧
      (Store.Collect h2 after).outcome = (Store.Collect h1 s).outcome ∧
      ∀ datas2 err2 after2, Store.Collect h2 after = .returned datas2 err2 after2 →
        (∀ r ∈ datas, after2.deref r = after.deref r) ∧ (∀ r ∈ datas, r ∉ datas2) := by
  have hh : h2 = h1 := by
    cases h1
    cases h2
    simp only at hgoos hglob
    rw [hgoos, hglob]
  subst hh
  refine ⟨storeCollect_outcome h2 s, ?_⟩
  intro datas err after hfirst
  obtain ⟨hcol, hlen, _, hrefs⟩ := storeCollect_returned hfirst
  refine ⟨hcol, ?_, ?_, ?_⟩
  · unfold collectTwice
    rw [hfirst]
  · rw [storeCollect_outcome h2 after, storeCollect_outcome h2 s, hcol]
  · intro datas2 err2 after2 hsecond
    obtain ⟨_, _, hkeep, hrefs2⟩ := storeCollect_returned hsecond
    constructor
    · intro r hr
      exact hkeep r (by rw [hrefs r hr, hlen]; omega)
    · intro r hr hr2
      have h1 := hrefs r hr
      have h2 := hrefs2 r hr2
      omega

theorem Collect_stateless_witness :
    ∃ after after2,
      Store.Collect (hostOf "darwin") usedStore = .returned [1] none after ∧
      Store.Collect (hostOf "darwin") after = .returned [2] none after2 ∧
      usedStore.deref 0 "total" = some 7 ∧
      after.deref 1 "total" = some 4 ∧ after.deref 1 "running" = some 1 ∧
      after2.deref 2 "total" = some 4 ∧ after2.deref 2 "running" = some 1 ∧
      after2.deref 1 "total" = some 4 ∧
      (Store.Collect (hostOf "darwin") after).outcome =
        (Store.Collect (hostOf "darwin") usedStore).outcome :=
  ⟨_, _, rfl, rfl, by decide, by decide, by decide, by decide, by decide, by decide,
    ((Collect_stateless (hostOf "darwin") (hostOf "darwin") usedStore rfl rfl).2
      [1] none _ rfl).2.2.1⟩

end Logkit
